import Mathlib

/-!
A shallow embedding of `Regular_Expression_to_DFA.py`: a regex → NFA → DFA
pipeline (shunting-yard postfix conversion, Thompson construction, subset
construction with epsilon closure).  NFA states are modelled as indices into
an arena (a list of per-state transition dictionaries), mirroring the
spec's index-addressed-arena design note; Python dictionaries are modelled
as insertion-ordered association lists with replace-in-place assignment;
Python sets/frozensets of states are modelled as `Finset Nat`.
-/

namespace RegexDFA

/-- Python dict lookup `d[k]` as an option (first — and only — matching key). -/
def dget {κ α : Type} [DecidableEq κ] (d : List (κ × α)) (k : κ) : Option α :=
  match d with
  | [] => none
  | (k', v) :: rest => if k = k' then some v else dget rest k

/-- Python dict assignment `d[k] = v`: replace in place if the key is
present, otherwise append at the end (insertion order preserved). -/
def dset {κ α : Type} [DecidableEq κ] (d : List (κ × α)) (k : κ) (v : α) :
    List (κ × α) :=
  match d with
  | [] => [(k, v)]
  | (k', v') :: rest => if k = k' then (k, v) :: rest else (k', v') :: dset rest k v

/-- Python `d.get(k, dflt)`. -/
def dgetD {κ α : Type} [DecidableEq κ] (d : List (κ × α)) (k : κ) (dflt : α) : α :=
  (dget d k).getD dflt

theorem dget_dset_self {κ α : Type} [DecidableEq κ] (d : List (κ × α)) (k : κ) (v : α) :
    dget (dset d k v) k = some v := by
  induction d with
  | nil => simp [dget, dset]
  | cons hd tl ih =>
    obtain ⟨k', v'⟩ := hd
    by_cases h : k = k' <;> simp [dget, dset, h, ih]

theorem dget_dset_ne {κ α : Type} [DecidableEq κ] (d : List (κ × α)) (k k' : κ) (v : α)
    (h : k' ≠ k) : dget (dset d k v) k' = dget d k' := by
  induction d with
  | nil => simp [dget, dset, h]
  | cons hd tl ih =>
    obtain ⟨k₀, v₀⟩ := hd
    by_cases hk : k = k₀
    · subst hk
      simp [dget, dset, h]
    · by_cases hk' : k' = k₀ <;> simp [dget, dset, hk, hk', ih]

/-- Keys of an association list. -/
def dkeys {κ α : Type} (d : List (κ × α)) : List κ := d.map Prod.fst

theorem dkeys_dset {κ α : Type} [DecidableEq κ] (d : List (κ × α)) (k : κ) (v : α) :
    (dget d k = none → dkeys (dset d k v) = dkeys d ++ [k]) ∧
    (∀ w, dget d k = some w → dkeys (dset d k v) = dkeys d) := by
  induction d with
  | nil => simp [dget, dset, dkeys]
  | cons hd tl ih =>
    obtain ⟨k₀, v₀⟩ := hd
    by_cases hk : k = k₀
    · subst hk
      simp [dget, dset, dkeys]
    · simp only [dget, dset, if_neg hk, dkeys, List.map_cons]
      constructor
      · intro h
        simp [dkeys] at ih
        simp [ih.1 h]
      · intro w h
        simp [dkeys] at ih
        simp [ih.2 w h]

theorem dget_none_iff {κ α : Type} [DecidableEq κ] (d : List (κ × α)) (k : κ) :
    dget d k = none ↔ k ∉ dkeys d := by
  induction d with
  | nil => simp [dget, dkeys]
  | cons hd tl ih =>
    obtain ⟨k₀, v₀⟩ := hd
    by_cases hk : k = k₀ <;> simp [dget, dkeys, hk, ih]

theorem dget_isSome_of_mem_dkeys {κ α : Type} [DecidableEq κ] (d : List (κ × α)) (k : κ)
    (h : k ∈ dkeys d) : (dget d k).isSome := by
  cases hg : dget d k with
  | none => exact absurd h ((dget_none_iff d k).mp hg)
  | some v => rfl

/-- A computable, canonically sorted enumeration of a finite set (used
wherever the source iterates over a Python set, whose order is
unspecified; proofs below never depend on the order).  Insertion sort is
used because it is structurally recursive, so concrete runs reduce inside
the kernel. -/
def sortedKeys {α : Type} [LinearOrder α] (s : Finset α) : List α :=
  Quot.liftOn s.val (List.insertionSort (· ≤ ·)) (fun l1 l2 h =>
    List.eq_of_perm_of_sorted
      ((List.perm_insertionSort _ l1).trans ((Quotient.exact (Quot.sound h)).trans
        (List.perm_insertionSort _ l2).symm))
      (List.sorted_insertionSort _ l1) (List.sorted_insertionSort _ l2))

theorem mem_sortedKeys {α : Type} [LinearOrder α] {s : Finset α} {x : α} :
    x ∈ sortedKeys s ↔ x ∈ s := by
  rcases s with ⟨m, hm⟩
  induction m using Quot.ind with
  | _ l =>
    simp only [sortedKeys, Quot.liftOn]
    constructor
    · intro h
      exact Finset.mem_mk.mpr ((List.perm_insertionSort _ l).mem_iff.mp h)
    · intro h
      exact (List.perm_insertionSort _ l).mem_iff.mpr (Finset.mem_mk.mp h)

theorem sortedKeys_toFinset {α : Type} [LinearOrder α] (s : Finset α) :
    (sortedKeys s).toFinset = s := by
  ext x
  simp [mem_sortedKeys]

/-! ### NFA states (`class NFAState`), arena-addressed -/

/-- `NFAState.transitions`: a dictionary from symbol to an ordered list of
target states (targets are arena indices). -/
structure NFAState where
  transitions : List (Char × List Nat)
deriving DecidableEq, Repr

/-- The arena of NFA states; an NFA state is an index into it. -/
abbrev Arena := List NFAState

/-- Transition dictionary of state `i` (empty for an out-of-range index). -/
def stTrans (arena : Arena) (i : Nat) : List (Char × List Nat) :=
  ((arena[i]?).getD ⟨[]⟩).transitions

/-- `state.transitions.get('ε', [])`. -/
def epsTargets (arena : Arena) (i : Nat) : List Nat :=
  dgetD (stTrans arena i) 'ε' []

/-- All target indices of one transition dictionary. -/
def dictTargets (d : List (Char × List Nat)) : Finset Nat :=
  d.foldr (fun p acc => p.2.toFinset ∪ acc) ∅

/-- All target indices mentioned anywhere in the arena (over every symbol). -/
def arenaTargets (arena : Arena) : Finset Nat :=
  arena.foldr (fun st acc => dictTargets st.transitions ∪ acc) ∅

theorem mem_dictTargets {d : List (Char × List Nat)} {t : Nat} :
    t ∈ dictTargets d ↔ ∃ c ts, (c, ts) ∈ d ∧ t ∈ ts := by
  induction d with
  | nil => simp [dictTargets]
  | cons p rest ih =>
    obtain ⟨c₀, ts₀⟩ := p
    simp only [dictTargets, List.foldr_cons] at *
    constructor
    · intro h
      rcases Finset.mem_union.mp h with h | h
      · exact ⟨c₀, ts₀, List.mem_cons_self _ _, by simpa using h⟩
      · obtain ⟨c, ts, hmem, ht⟩ := ih.mp h
        exact ⟨c, ts, List.mem_cons_of_mem _ hmem, ht⟩
    · rintro ⟨c, ts, hmem, ht⟩
      rcases List.mem_cons.mp hmem with h | h
      · cases h
        exact Finset.mem_union_left _ (by simpa using ht)
      · exact Finset.mem_union_right _ (ih.mpr ⟨c, ts, h, ht⟩)

theorem mem_arenaTargets_of_mem {arena : Arena} {st : NFAState} {t : Nat}
    (hst : st ∈ arena) (ht : t ∈ dictTargets st.transitions) : t ∈ arenaTargets arena := by
  induction arena with
  | nil => simp at hst
  | cons hd tl ih =>
    simp only [arenaTargets, List.foldr_cons]
    rcases List.mem_cons.mp hst with h | h
    · subst h; exact Finset.mem_union_left _ ht
    · exact Finset.mem_union_right _ (ih h)

theorem mem_arenaTargets {arena : Arena} {i t : Nat} {c : Char} {ts : List Nat}
    (hi : (c, ts) ∈ stTrans arena i) (ht : t ∈ ts) : t ∈ arenaTargets arena := by
  by_cases hrange : i < arena.length
  · have hget : arena[i]? = some arena[i] := List.getElem?_eq_getElem hrange
    have hst : stTrans arena i = arena[i].transitions := by
      simp [stTrans, hget]
    exact mem_arenaTargets_of_mem (arena.getElem_mem hrange)
      (mem_dictTargets.mpr ⟨c, ts, hst ▸ hi, ht⟩)
  · have hget : arena[i]? = none := by
      simp [List.getElem?_eq_none_iff.mpr (Nat.le_of_not_lt hrange)]
    simp [stTrans, hget] at hi

/-! ### Infix-to-postfix conversion (`regex_to_postfix`) -/

/-- Python `str.isalnum` on the ASCII alphabet this program is used with. -/
def isalnum (c : Char) : Bool := c.isAlphanum

/-- `insert_concatenation_operators`: insert an explicit `.` between a pair
of adjacent characters when the left is a literal, `*` or `)` and the right
is a literal or `(`. -/
def insertConcatenationOperators : List Char → List Char
  | [] => []
  | [c] => [c]
  | c1 :: c2 :: rest =>
    if (isalnum c1 || c1 = '*' || c1 = ')') && (isalnum c2 || c2 = '(') then
      c1 :: '.' :: insertConcatenationOperators (c2 :: rest)
    else
      c1 :: insertConcatenationOperators (c2 :: rest)

/-- `precedence.get(c, 0)` for `precedence = ('*': 3, '.': 2, '+': 1)`. -/
def precOf (c : Char) : Nat :=
  if c = '*' then 3 else if c = '.' then 2 else if c = '+' then 1 else 0

/-- The operator case of the scan: pop operators whose precedence is ≥ the
incoming one to the output (`(` has default precedence 0, so it is never
popped here).  Returns the remaining stack and extended output. -/
def popGE (c : Char) : List Char → List Char → List Char × List Char
  | [], out => ([], out)
  | t :: rest, out =>
    if precOf c ≤ precOf t then popGE c rest (out ++ [t]) else (t :: rest, out)

/-- The `)` case: pop operators to the output until a `(` is found and
discarded; an exhausted stack means the final `stack.pop()` of the source
raises (modelled as `none`). -/
def popUntilLParen : List Char → List Char → Option (List Char × List Char)
  | [], _ => none
  | t :: rest, out =>
    if t = '(' then some (rest, out) else popUntilLParen rest (out ++ [t])

/-- One character of the shunting-yard scan over `(stack, output)`. -/
def shuntStep (acc : Option (List Char × List Char)) (c : Char) :
    Option (List Char × List Char) :=
  match acc with
  | none => none
  | some (stack, out) =>
    if isalnum c then some (stack, out ++ [c])
    else if c = '(' then some (c :: stack, out)
    else if c = ')' then popUntilLParen stack out
    else
      let p := popGE c stack out
      some (c :: p.1, p.2)

/-- `regex_to_postfix`: insert concatenation operators, scan, then drain the
remaining operator stack onto the output (the source raises only inside the
`)` case; anything left on the stack — `(` included — is appended). -/
def regexToPost (regex : List Char) : Option (List Char) :=
  match (insertConcatenationOperators regex).foldl shuntStep (some ([], [])) with
  | none => none
  | some (stack, out) => some (out ++ stack)

/-! ### Thompson construction (`construct_nfa`) -/

/-- Append a fresh transition-less NFA state; returns the arena and the new
state's index. -/
def newState (arena : Arena) : Arena × Nat := (arena ++ [⟨[]⟩], arena.length)

/-- `state.transitions[c] = ts` for the state at index `i`. -/
def setTrans (arena : Arena) (i : Nat) (c : Char) (ts : List Nat) : Arena :=
  arena.set i ⟨dset (stTrans arena i) c ts⟩

/-- One token of `construct_nfa`'s dispatch.  The stack holds
(start, accept) fragments, top at the head.  Characters that are neither
literals nor one of `*`, `.`, `+` are skipped, as in the source (its
`if/elif` chain has no final `else`); popping an empty stack is `none`. -/
def constructStep (c : Char) : List (Nat × Nat) × Arena → Option (List (Nat × Nat) × Arena)
  | (stack, arena) =>
    if isalnum c then
      let n1 := newState arena
      let n2 := newState n1.1
      some ((n1.2, n2.2) :: stack, setTrans n2.1 n1.2 c [n2.2])
    else if c = '*' then
      match stack with
      | [] => none
      | (nfaStart, nfaAccept) :: rest =>
        let n1 := newState arena
        let n2 := newState n1.1
        let arena₃ := setTrans n2.1 n1.2 'ε' [nfaStart, n2.2]
        let arena₄ := setTrans arena₃ nfaAccept 'ε' [nfaStart, n2.2]
        some ((n1.2, n2.2) :: rest, arena₄)
    else if c = '.' then
      match stack with
      | (s2, _a2) :: (s1, a1) :: rest =>
        some ((s1, _a2) :: rest, setTrans arena a1 'ε' [s2])
      | _ => none
    else if c = '+' then
      match stack with
      | (s2, a2) :: (s1, a1) :: rest =>
        let n1 := newState arena
        let n2 := newState n1.1
        let arena₃ := setTrans n2.1 n1.2 'ε' [s1, s2]
        let arena₄ := setTrans arena₃ a1 'ε' [n2.2]
        let arena₅ := setTrans arena₄ a2 'ε' [n2.2]
        some ((n1.2, n2.2) :: rest, arena₅)
      | _ => none
    else
      some (stack, arena)

/-- The builder's token loop, from a given stack and arena. -/
def constructNFAAux : List Char → List (Nat × Nat) × Arena → Option (List (Nat × Nat) × Arena)
  | [], sa => some sa
  | c :: cs, sa =>
    match constructStep c sa with
    | none => none
    | some sa' => constructNFAAux cs sa'

/-- `construct_nfa(postfix)`, starting from an empty stack and arena; the
final `stack.pop()` fails (`none`) when the stack is empty — in particular
on the empty input. -/
def constructNFA (pfx : List Char) : Option ((Nat × Nat) × Arena) :=
  match constructNFAAux pfx ([], []) with
  | some (f :: _, arena) => some (f, arena)
  | _ => none

/-! ### Epsilon closure and move -/

/-- The inner `for next_state in state.transitions.get('ε', [])` loop:
targets not yet in the closure are added to the closure and pushed. -/
def addNew (ts : List Nat) (closure : Finset Nat) (stack : List Nat) :
    Finset Nat × List Nat :=
  ts.foldl (fun acc t => if t ∈ acc.1 then acc else (insert t acc.1, t :: acc.2))
    (closure, stack)

/-- The worklist loop of `epsilon_closure`; `fuel` bounds the number of
pops and is chosen large enough below that it never runs out. -/
def epsClosureAux (arena : Arena) : Nat → List Nat → Finset Nat → Finset Nat
  | 0, _, closure => closure
  | _ + 1, [], closure => closure
  | fuel + 1, s :: stack, closure =>
    let p := addNew (epsTargets arena s) closure stack
    epsClosureAux arena fuel p.2 p.1

/-- `epsilon_closure(states)`: seed both the stack and the closure with the
given states and run the worklist to its fixed point.  Each pop removes one
stack entry and each push adds a previously unseen arena target, so
`states.length + (arenaTargets arena).card + 1` pops always suffice. -/
def epsClosure (arena : Arena) (states : List Nat) : Finset Nat :=
  epsClosureAux arena (states.length + (arenaTargets arena).card + 1) states
    states.toFinset

/-- `move(states, symbol)`: union of the one-step targets on `symbol` over
the given states.  The source does not special-case the epsilon symbol
here; its caller filters it out instead. -/
def move (arena : Arena) (states : List Nat) (symbol : Char) : Finset Nat :=
  states.foldl (fun acc s =>
    match dget (stTrans arena s) symbol with
    | some ts => acc ∪ ts.toFinset
    | none => acc) ∅

/-! ### Correctness of the epsilon-closure worklist -/

theorem dget_mem {κ α : Type} [DecidableEq κ] {d : List (κ × α)} {k : κ} {v : α}
    (h : dget d k = some v) : (k, v) ∈ d := by
  induction d with
  | nil => simp [dget] at h
  | cons hd tl ih =>
    obtain ⟨k₀, v₀⟩ := hd
    by_cases hk : k = k₀
    · subst hk
      simp [dget] at h
      simp [h]
    · simp [dget, hk] at h
      exact List.mem_cons_of_mem _ (ih h)

theorem epsTargets_subset_arenaTargets {arena : Arena} {i t : Nat}
    (h : t ∈ epsTargets arena i) : t ∈ arenaTargets arena := by
  unfold epsTargets dgetD at h
  cases hg : dget (stTrans arena i) 'ε' with
  | none => simp [hg] at h
  | some ts =>
    simp [hg] at h
    exact mem_arenaTargets (dget_mem hg) h

/-- One epsilon transition in the arena. -/
def epsStep (arena : Arena) (i j : Nat) : Prop := j ∈ epsTargets arena i

/-- Reachability along epsilon transitions. -/
def EpsReach (arena : Arena) : Nat → Nat → Prop :=
  Relation.ReflTransGen (epsStep arena)

theorem addNew_fst (ts : List Nat) (closure : Finset Nat) (stack : List Nat) :
    (addNew ts closure stack).1 = closure ∪ ts.toFinset := by
  induction ts generalizing closure stack with
  | nil => simp [addNew]
  | cons t ts ih =>
    simp only [addNew, List.foldl_cons] at *
    by_cases h : t ∈ closure
    · simp only [if_pos h]
      rw [ih]
      ext x
      by_cases hx : x = t <;> simp [hx, h]
    · simp only [if_neg h]
      rw [ih]
      ext x
      by_cases hx : x = t <;> simp [hx]

theorem addNew_snd_mem {ts : List Nat} {closure : Finset Nat} {stack : List Nat} {x : Nat}
    (h : x ∈ (addNew ts closure stack).2) : x ∈ stack ∨ x ∈ ts := by
  induction ts generalizing closure stack with
  | nil => simp [addNew] at h; exact Or.inl h
  | cons t ts ih =>
    simp only [addNew, List.foldl_cons] at h
    by_cases hc : t ∈ closure
    · rw [if_pos hc] at h
      rcases ih h with h | h
      · exact Or.inl h
      · exact Or.inr (List.mem_cons_of_mem _ h)
    · rw [if_neg hc] at h
      rcases ih h with h | h
      · rcases List.mem_cons.mp h with h | h
        · exact Or.inr (h ▸ List.mem_cons_self _ _)
        · exact Or.inl h
      · exact Or.inr (List.mem_cons_of_mem _ h)

theorem addNew_stack_subset (ts : List Nat) (closure : Finset Nat) (stack : List Nat)
    (h : ∀ x ∈ stack, x ∈ closure) :
    ∀ x ∈ (addNew ts closure stack).2, x ∈ (addNew ts closure stack).1 := by
  induction ts generalizing closure stack with
  | nil => simpa [addNew] using h
  | cons t ts ih =>
    simp only [addNew, List.foldl_cons]
    by_cases hc : t ∈ closure
    · rw [if_pos hc]
      exact ih closure stack h
    · rw [if_neg hc]
      refine ih (insert t closure) (t :: stack) ?_
      intro x hx
      rcases List.mem_cons.mp hx with hx | hx
      · simp [hx]
      · exact Finset.mem_insert_of_mem (h x hx)

theorem addNew_stack_mono (ts : List Nat) (closure : Finset Nat) (stack : List Nat) :
    ∀ x ∈ stack, x ∈ (addNew ts closure stack).2 := by
  induction ts generalizing closure stack with
  | nil => simp [addNew]
  | cons t ts ih =>
    intro x hx
    simp only [addNew, List.foldl_cons]
    by_cases hc : t ∈ closure
    · rw [if_pos hc]
      exact ih closure stack x hx
    · rw [if_neg hc]
      exact ih (insert t closure) (t :: stack) x (List.mem_cons_of_mem _ hx)

theorem addNew_new_on_stack (ts : List Nat) (closure : Finset Nat) (stack : List Nat) :
    ∀ x ∈ (addNew ts closure stack).1, x ∈ closure ∨ x ∈ (addNew ts closure stack).2 := by
  induction ts generalizing closure stack with
  | nil => intro x hx; simp [addNew] at hx ⊢; exact Or.inl hx
  | cons t ts ih =>
    intro x hx
    simp only [addNew, List.foldl_cons] at hx ⊢
    by_cases hc : t ∈ closure
    · rw [if_pos hc] at hx ⊢
      exact ih closure stack x hx
    · rw [if_neg hc] at hx ⊢
      rcases ih (insert t closure) (t :: stack) x hx with h | h
      · rcases Finset.mem_insert.mp h with h | h
        · exact Or.inr (h ▸ addNew_stack_mono ts (insert t closure) (t :: stack) t
            (List.mem_cons_self _ _))
        · exact Or.inl h
      · exact Or.inr h

theorem addNew_length (ts : List Nat) (closure : Finset Nat) (stack : List Nat) :
    (addNew ts closure stack).2.length + closure.card =
      stack.length + (addNew ts closure stack).1.card := by
  induction ts generalizing closure stack with
  | nil => simp [addNew]
  | cons t ts ih =>
    simp only [addNew, List.foldl_cons]
    by_cases hc : t ∈ closure
    · rw [if_pos hc]
      exact ih closure stack
    · rw [if_neg hc]
      have := ih (insert t closure) (t :: stack)
      rw [Finset.card_insert_of_not_mem hc] at this
      simp only [addNew, List.length_cons] at this
      omega

theorem epsClosureAux_sound (arena : Arena) (P : Nat → Prop)
    (hP : ∀ x, P x → ∀ t ∈ epsTargets arena x, P t) :
    ∀ fuel stack closure, (∀ x ∈ closure, P x) → (∀ x ∈ stack, x ∈ closure) →
      ∀ y ∈ epsClosureAux arena fuel stack closure, P y := by
  intro fuel
  induction fuel with
  | zero =>
    intro stack closure hc _ y hy
    exact hc y (by simpa [epsClosureAux] using hy)
  | succ fuel ih =>
    intro stack closure hc hs y hy
    match stack with
    | [] => exact hc y (by simpa [epsClosureAux] using hy)
    | s :: stack =>
      simp only [epsClosureAux] at hy
      refine ih _ _ ?_ ?_ y hy
      · intro x hx
        rw [addNew_fst] at hx
        rcases Finset.mem_union.mp hx with h | h
        · exact hc x h
        · exact hP s (hc s (hs s (List.mem_cons_self _ _))) x (by simpa using h)
      · exact addNew_stack_subset _ _ _
          (fun x hx => hs x (List.mem_cons_of_mem _ hx))

theorem epsClosureAux_complete (arena : Arena) :
    ∀ fuel stack closure,
      (∀ x ∈ stack, x ∈ closure) →
      (∀ x ∈ closure, x ∈ stack ∨ ∀ t ∈ epsTargets arena x, t ∈ closure) →
      stack.length + (arenaTargets arena \ closure).card < fuel →
      closure ⊆ epsClosureAux arena fuel stack closure ∧
      ∀ x ∈ epsClosureAux arena fuel stack closure,
        ∀ t ∈ epsTargets arena x, t ∈ epsClosureAux arena fuel stack closure := by
  intro fuel
  induction fuel with
  | zero => intro stack closure _ _ hf; omega
  | succ fuel ih =>
    intro stack closure hs hcl hf
    match stack with
    | [] =>
      refine ⟨by simp [epsClosureAux], ?_⟩
      intro x hx t ht
      simp only [epsClosureAux] at hx ⊢
      rcases hcl x hx with h | h
      · simp at h
      · exact h t ht
    | s :: stack =>
      simp only [epsClosureAux]
      have hfst : (addNew (epsTargets arena s) closure stack).1
          = closure ∪ (epsTargets arena s).toFinset := addNew_fst _ _ _
      have hsub : closure ⊆ (addNew (epsTargets arena s) closure stack).1 := by
        rw [hfst]; exact Finset.subset_union_left
      have h1 : ∀ x ∈ (addNew (epsTargets arena s) closure stack).2,
          x ∈ (addNew (epsTargets arena s) closure stack).1 :=
        addNew_stack_subset _ _ _ (fun x hx => hs x (List.mem_cons_of_mem _ hx))
      have h2 : ∀ x ∈ (addNew (epsTargets arena s) closure stack).1,
          x ∈ (addNew (epsTargets arena s) closure stack).2 ∨
          ∀ t ∈ epsTargets arena x, t ∈ (addNew (epsTargets arena s) closure stack).1 := by
        intro x hx
        rcases addNew_new_on_stack _ _ _ x hx with hxc | hxs
        · rcases hcl x hxc with hxs | hxcl
          · rcases List.mem_cons.mp hxs with h | h
            · right
              intro t ht
              rw [hfst]
              exact Finset.mem_union_right _ (by simp [← h, ht])
            · exact Or.inl (addNew_stack_mono _ _ _ x h)
          · right
            intro t ht
            rw [hfst]
            exact Finset.mem_union_left _ (hxcl t ht)
        · exact Or.inl hxs
      have hNsub : (addNew (epsTargets arena s) closure stack).1 \ closure
          ⊆ arenaTargets arena \ closure := by
        intro t ht
        rcases Finset.mem_sdiff.mp ht with ⟨ht1, ht2⟩
        rw [hfst] at ht1
        rcases Finset.mem_union.mp ht1 with h | h
        · exact absurd h ht2
        · exact Finset.mem_sdiff.mpr
            ⟨epsTargets_subset_arenaTargets (by simpa using h), ht2⟩
      have h3 : (addNew (epsTargets arena s) closure stack).2.length +
          (arenaTargets arena \ (addNew (epsTargets arena s) closure stack).1).card < fuel := by
        have hlen := addNew_length (epsTargets arena s) closure stack
        have hid : arenaTargets arena \ (addNew (epsTargets arena s) closure stack).1
            = (arenaTargets arena \ closure)
              \ ((addNew (epsTargets arena s) closure stack).1 \ closure) := by
          ext x
          have := @hsub x
          simp only [Finset.mem_sdiff]
          tauto
        have e1 := Finset.card_sdiff_add_card_eq_card hNsub
        have e2 := Finset.card_sdiff_add_card_eq_card hsub
        simp only [List.length_cons] at hf
        rw [hid]
        omega
      obtain ⟨ha, hb⟩ := ih _ _ h1 h2 h3
      exact ⟨hsub.trans ha, hb⟩

/-- The computed epsilon closure is exactly the set of states
epsilon-reachable from the seed list. -/
theorem mem_epsClosure {arena : Arena} {seeds : List Nat} {y : Nat} :
    y ∈ epsClosure arena seeds ↔ ∃ s ∈ seeds, EpsReach arena s y := by
  constructor
  · intro hy
    refine epsClosureAux_sound arena (fun x => ∃ s ∈ seeds, EpsReach arena s x)
      ?_ _ _ _ ?_ ?_ y hy
    · rintro x ⟨s, hsm, hr⟩ t ht
      exact ⟨s, hsm, hr.tail ht⟩
    · intro x hx
      exact ⟨x, by simpa using hx, Relation.ReflTransGen.refl⟩
    · intro x hx
      simpa using hx
  · rintro ⟨s, hsm, hr⟩
    have h1 : ∀ x ∈ seeds, x ∈ seeds.toFinset := fun x hx => List.mem_toFinset.mpr hx
    have h2 : ∀ x ∈ seeds.toFinset, x ∈ seeds ∨
        ∀ t ∈ epsTargets arena x, t ∈ seeds.toFinset :=
      fun x hx => Or.inl (List.mem_toFinset.mp hx)
    have h3 : seeds.length + (arenaTargets arena \ seeds.toFinset).card
        < seeds.length + (arenaTargets arena).card + 1 := by
      have := Finset.card_le_card
        (Finset.sdiff_subset : arenaTargets arena \ seeds.toFinset ⊆ arenaTargets arena)
      omega
    obtain ⟨hsub, hclosed⟩ := epsClosureAux_complete arena _ _ _ h1 h2 h3
    show y ∈ epsClosureAux arena (seeds.length + (arenaTargets arena).card + 1)
      seeds seeds.toFinset
    induction hr with
    | refl => exact hsub (List.mem_toFinset.mpr hsm)
    | tail hab hstep ihr => exact hclosed _ ihr _ hstep

/-- The closure stays inside the seeds plus the arena's targets. -/
theorem epsClosure_subset {arena : Arena} {seeds : List Nat} :
    epsClosure arena seeds ⊆ seeds.toFinset ∪ arenaTargets arena := by
  intro y hy
  obtain ⟨s, hsm, hr⟩ := mem_epsClosure.mp hy
  rcases hr.cases_tail with h | ⟨c, _, hc⟩
  · exact Finset.mem_union_left _ (List.mem_toFinset.mpr (h ▸ hsm))
  · exact Finset.mem_union_right _ (epsTargets_subset_arenaTargets hc)

/-! ### Correctness of `move` -/

theorem mem_move_foldl {arena : Arena} {symbol : Char} {t : Nat} :
    ∀ (l : List Nat) (acc : Finset Nat),
      t ∈ l.foldl (fun acc s =>
        match dget (stTrans arena s) symbol with
        | some ts => acc ∪ ts.toFinset
        | none => acc) acc ↔
      t ∈ acc ∨ ∃ s ∈ l, ∃ ts, dget (stTrans arena s) symbol = some ts ∧ t ∈ ts := by
  intro l
  induction l with
  | nil => simp
  | cons s l ih =>
    intro acc
    simp only [List.foldl_cons]
    cases hg : dget (stTrans arena s) symbol with
    | none =>
      rw [ih]
      constructor
      · rintro (h | ⟨s', hs', ts, hts, ht⟩)
        · exact Or.inl h
        · exact Or.inr ⟨s', List.mem_cons_of_mem _ hs', ts, hts, ht⟩
      · rintro (h | ⟨s', hs', ts, hts, ht⟩)
        · exact Or.inl h
        · rcases List.mem_cons.mp hs' with h' | h'
          · rw [h'] at hts
            simp [hg] at hts
          · exact Or.inr ⟨s', h', ts, hts, ht⟩
    | some ts =>
      rw [ih]
      constructor
      · rintro (h | ⟨s', hs', ts', hts', ht⟩)
        · rcases Finset.mem_union.mp h with h | h
          · exact Or.inl h
          · exact Or.inr ⟨s, List.mem_cons_self _ _, ts, hg, by simpa using h⟩
        · exact Or.inr ⟨s', List.mem_cons_of_mem _ hs', ts', hts', ht⟩
      · rintro (h | ⟨s', hs', ts', hts', ht⟩)
        · exact Or.inl (Finset.mem_union_left _ h)
        · rcases List.mem_cons.mp hs' with h' | h'
          · rw [h'] at hts'
            rw [hg] at hts'
            cases hts'
            exact Or.inl (Finset.mem_union_right _ (by simpa using ht))
          · exact Or.inr ⟨s', h', ts', hts', ht⟩

/-- `move(states, symbol)` is exactly the union of the one-step targets
labelled `symbol` over the listed states — for every symbol, the epsilon
symbol included. -/
theorem mem_move {arena : Arena} {states : List Nat} {symbol : Char} {t : Nat} :
    t ∈ move arena states symbol ↔
      ∃ s ∈ states, ∃ ts, dget (stTrans arena s) symbol = some ts ∧ t ∈ ts := by
  rw [move, mem_move_foldl]
  simp

theorem move_subset_arenaTargets {arena : Arena} {states : List Nat} {symbol : Char} :
    move arena states symbol ⊆ arenaTargets arena := by
  intro t ht
  obtain ⟨s, _, ts, hg, hts⟩ := mem_move.mp ht
  exact mem_arenaTargets (dget_mem hg) hts

/-! ### Subset construction (`nfa_to_dfa`) -/

/-- `class DFAState`, keyed by its defining set: the transition dictionary
maps a symbol to the *defining set* of the target DFA state (in the source
the value is the target object, but every target object is stored in
`dfa_states` under exactly that key). -/
structure DFAState where
  transitions : List (Char × Finset Nat)
  is_accept : Bool
deriving DecidableEq

/-- The `dfa_states` dictionary: defining set → DFA state, insertion
ordered. -/
abbrev DFAMap := List (Finset Nat × DFAState)

/-- `set(char for state in current.nfa_states for char in state.transitions
if char != 'ε')`: the probe symbols of a defining set. -/
def symbolsOf (arena : Arena) (curKey : Finset Nat) : Finset Char :=
  (sortedKeys curKey).foldl
    (fun acc s => acc ∪ (dkeys (stTrans arena s)).toFinset.filter (· ≠ 'ε')) ∅

/-- `m[k].transitions[c] = target` (no-op when `k` is absent, which the
algorithm never does). -/
def updateTrans (m : DFAMap) (k : Finset Nat) (c : Char) (target : Finset Nat) :
    DFAMap :=
  match dget m k with
  | some st => dset m k ⟨dset st.transitions c target, st.is_accept⟩
  | none => m

/-- `closure(move(current.nfa_states, symbol))`: the defining set of the
target DFA state for one probe symbol — a pure function of the arena, the
current defining set and the symbol. -/
def targetKey (arena : Arena) (curKey : Finset Nat) (symbol : Char) : Finset Nat :=
  epsClosure arena (sortedKeys (move arena (sortedKeys curKey) symbol))

/-- The body of the `for symbol in ...` loop over one probe symbol:
compute `closure(move(...))`, create-and-enqueue its DFA state when the
defining set is new, and record the transition either way. -/
def processSymbol (arena : Arena) (nfaAccept : Nat) (curKey : Finset Nat)
    (acc : DFAMap × List (Finset Nat)) (symbol : Char) : DFAMap × List (Finset Nat) :=
  let m := acc.1
  let closure := targetKey arena curKey symbol
  let next :=
    match dget m closure with
    | none => (dset m closure ⟨[], nfaAccept ∈ closure⟩, acc.2 ++ [closure])
    | some _ => (m, acc.2)
  (updateTrans next.1 curKey symbol closure, next.2)

/-- One symbol of the totality pass: `if symbol not in
current.transitions: current.transitions[symbol] = dead_state` (the dead
state's key is `∅`). -/
def addMissing (curKey : Finset Nat) (m : DFAMap) (symbol : Char) : DFAMap :=
  match dget m curKey with
  | some st =>
    match dget st.transitions symbol with
    | none => updateTrans m curKey symbol ∅
    | some _ => m
  | none => m

/-- The totality pass: `for symbol in 'ab'`, point any missing transition of
the current state at the dead state. -/
def completeAB (m : DFAMap) (curKey : Finset Nat) : DFAMap :=
  ['a', 'b'].foldl (addMissing curKey) m

/-- The determinizer's worklist loop (`while queue:`); the queue is FIFO and
holds defining sets.  `fuel` bounds the number of iterations and is chosen
below so that it never runs out (`none`). -/
def dfaLoop (arena : Arena) (nfaAccept : Nat) :
    Nat → List (Finset Nat) → DFAMap → Option DFAMap
  | 0, _ :: _, _ => none
  | _ + 1, [], m => some m
  | 0, [], m => some m
  | fuel + 1, curKey :: queue, m =>
    let p := (sortedKeys (symbolsOf arena curKey)).foldl
      (processSymbol arena nfaAccept curKey) (m, [])
    dfaLoop arena nfaAccept fuel (queue ++ p.2) (completeAB p.1 curKey)

/-- Every defining set the loop can create lives inside this universe:
the NFA start plus every transition target of the arena. -/
def stateUniverse (arena : Arena) (nfaStart : Nat) : Finset Nat :=
  insert nfaStart (arenaTargets arena)

/-- The seeded `dfa_states` dictionary: the start state's closure entry
(`dfa_states[start_closure] = dfa_start`), then the dead state
(`dfa_states[frozenset()] = dead_state` with `'a'`/`'b'` self-loops,
non-accepting, empty defining set, never enqueued). -/
def initMap (arena : Arena) (nfaStart nfaAccept : Nat) : DFAMap :=
  dset [(epsClosure arena [nfaStart], ⟨[], nfaAccept ∈ epsClosure arena [nfaStart]⟩)] ∅
    ⟨[('a', ∅), ('b', ∅)], false⟩

/-- `nfa_to_dfa(nfa_start, nfa_accept)`: seed the map, then drain the
worklist.  The fuel `2 ^ |stateUniverse| + 1` exceeds the number of
distinct defining sets and hence the number of possible iterations;
termination (`isSome`) is proved below. -/
def nfaToDfa (arena : Arena) (nfaStart nfaAccept : Nat) :
    Option (Finset Nat × DFAMap) :=
  let startClosure := epsClosure arena [nfaStart]
  (dfaLoop arena nfaAccept (2 ^ (stateUniverse arena nfaStart).card + 1)
    [startClosure] (initMap arena nfaStart nfaAccept)).map (fun m => (startClosure, m))

/-! ### The full pipeline (`regex_to_dfa`) and DFA execution -/

/-- `regex_to_dfa`: postfix conversion, Thompson construction, subset
construction.  `none` when any stage of the source would raise. -/
def regexToDfa (regex : List Char) : Option (Finset Nat × DFAMap) :=
  match regexToPost regex with
  | none => none
  | some pfx =>
    match constructNFA pfx with
    | none => none
    | some ((nfaStart, nfaAccept), arena) => nfaToDfa arena nfaStart nfaAccept

/-- Follow the transition dictionary from a DFA state, one symbol at a
time; `none` when a symbol has no entry (a `KeyError` in the source). -/
def dfaRun (m : DFAMap) (k : Finset Nat) : List Char → Option (Finset Nat)
  | [] => some k
  | c :: cs =>
    match dget m k with
    | none => none
    | some st =>
      match dget st.transitions c with
      | none => none
      | some k' => dfaRun m k' cs

/-- The DFA accepts `s` iff following the transitions from the start state
on each symbol of `s` ends in a state whose accept flag is true. -/
def dfaAccepts (start : Finset Nat) (m : DFAMap) (s : List Char) : Bool :=
  match dfaRun m start s with
  | none => false
  | some k =>
    match dget m k with
    | none => false
    | some st => st.is_accept

/-- End-to-end: does the DFA built from `regex` accept `s`?  (`false` also
when the pipeline fails, which never happens for the inputs considered.) -/
def pipelineAccepts (regex s : List Char) : Bool :=
  match regexToDfa regex with
  | none => false
  | some (start, m) => dfaAccepts start m s

/-! ### Helper lemmas for the determinizer -/

theorem sortedKeys_nodup {α : Type} [LinearOrder α] (s : Finset α) :
    (sortedKeys s).Nodup := by
  rcases s with ⟨m, hm⟩
  induction m using Quot.ind with
  | _ l =>
    exact (List.perm_insertionSort _ l).nodup_iff.mpr hm

theorem dset_nodup {κ α : Type} [DecidableEq κ] {d : List (κ × α)} (k : κ) (v : α)
    (h : (dkeys d).Nodup) : (dkeys (dset d k v)).Nodup := by
  cases hg : dget d k with
  | none =>
    rw [(dkeys_dset d k v).1 hg]
    simpa [List.nodup_append, (dget_none_iff d k).mp hg] using h
  | some w =>
    rw [(dkeys_dset d k v).2 w hg]
    exact h

theorem dget_dset_isSome {κ α : Type} [DecidableEq κ] (d : List (κ × α)) (k k' : κ)
    (v : α) (h : (dget d k').isSome) : (dget (dset d k v) k').isSome := by
  by_cases hk : k' = k
  · subst hk
    simp [dget_dset_self]
  · rwa [dget_dset_ne d k k' v hk]

theorem updateTrans_dkeys (m : DFAMap) (k : Finset Nat) (c : Char) (t : Finset Nat) :
    dkeys (updateTrans m k c t) = dkeys m := by
  unfold updateTrans
  cases hg : dget m k with
  | none => rfl
  | some st => exact (dkeys_dset m k _).2 st hg

theorem updateTrans_dget_ne (m : DFAMap) (k k' : Finset Nat) (c : Char) (t : Finset Nat)
    (h : k' ≠ k) : dget (updateTrans m k c t) k' = dget m k' := by
  unfold updateTrans
  cases hg : dget m k with
  | none => rfl
  | some st => exact dget_dset_ne m k k' _ h

theorem updateTrans_dget_self {m : DFAMap} {k : Finset Nat} {st : DFAState}
    (c : Char) (t : Finset Nat) (h : dget m k = some st) :
    dget (updateTrans m k c t) k = some ⟨dset st.transitions c t, st.is_accept⟩ := by
  unfold updateTrans
  rw [h]
  exact dget_dset_self m k _

/-- The transition dictionary the symbol loop leaves on the current state:
each probed symbol is assigned its target key in order. -/
def transAfter (arena : Arena) (curKey : Finset Nat) (cs : List Char)
    (d : List (Char × Finset Nat)) : List (Char × Finset Nat) :=
  cs.foldl (fun d c => dset d c (targetKey arena curKey c)) d

theorem transAfter_dget_not_mem (arena : Arena) (curKey : Finset Nat) :
    ∀ (cs : List Char) (d : List (Char × Finset Nat)) (c : Char), c ∉ cs →
      dget (transAfter arena curKey cs d) c = dget d c := by
  intro cs
  induction cs with
  | nil => intro d c _; rfl
  | cons c₀ cs ih =>
    intro d c hc
    have hne : c ≠ c₀ := fun h => hc (h ▸ List.mem_cons_self _ _)
    rw [transAfter, List.foldl_cons, ← transAfter,
      ih _ c (fun h => hc (List.mem_cons_of_mem _ h)), dget_dset_ne _ _ _ _ hne]

theorem transAfter_dget_mem (arena : Arena) (curKey : Finset Nat) :
    ∀ (cs : List Char) (d : List (Char × Finset Nat)) (c : Char), cs.Nodup → c ∈ cs →
      dget (transAfter arena curKey cs d) c = some (targetKey arena curKey c) := by
  intro cs
  induction cs with
  | nil => intro d c _ hc; simp at hc
  | cons c₀ cs ih =>
    intro d c hnd hc
    rw [transAfter, List.foldl_cons, ← transAfter]
    rcases List.mem_cons.mp hc with h | h
    · subst h
      rw [transAfter_dget_not_mem arena curKey cs _ c (List.nodup_cons.mp hnd).1]
      exact dget_dset_self d c _
    · exact ih _ c (List.nodup_cons.mp hnd).2 h

theorem transAfter_dget_some (arena : Arena) (curKey : Finset Nat) :
    ∀ (cs : List Char) (d : List (Char × Finset Nat)) (c : Char) (v : Finset Nat),
      dget (transAfter arena curKey cs d) c = some v →
      dget d c = some v ∨ (c ∈ cs ∧ v = targetKey arena curKey c) := by
  intro cs
  induction cs with
  | nil => intro d c v h; exact Or.inl h
  | cons c₀ cs ih =>
    intro d c v h
    rw [transAfter, List.foldl_cons, ← transAfter] at h
    rcases ih _ c v h with h' | h'
    · by_cases hc : c = c₀
      · subst hc
        rw [dget_dset_self] at h'
        exact Or.inr ⟨List.mem_cons_self _ _, (Option.some.injEq _ _).mp h'.symm ▸ rfl⟩
      · rw [dget_dset_ne _ _ _ _ hc] at h'
        exact Or.inl h'
    · exact Or.inr ⟨List.mem_cons_of_mem _ h'.1, h'.2⟩

theorem transAfter_isSome (arena : Arena) (curKey : Finset Nat) :
    ∀ (cs : List Char) (d : List (Char × Finset Nat)) (c : Char),
      (dget d c).isSome → (dget (transAfter arena curKey cs d) c).isSome := by
  intro cs
  induction cs with
  | nil => intro d c h; exact h
  | cons c₀ cs ih =>
    intro d c h
    rw [transAfter, List.foldl_cons, ← transAfter]
    exact ih _ c (dget_dset_isSome _ _ _ _ h)

theorem transAfter_nodup (arena : Arena) (curKey : Finset Nat) :
    ∀ (cs : List Char) (d : List (Char × Finset Nat)),
      (dkeys d).Nodup → (dkeys (transAfter arena curKey cs d)).Nodup := by
  intro cs
  induction cs with
  | nil => intro d h; exact h
  | cons c₀ cs ih =>
    intro d h
    rw [transAfter, List.foldl_cons, ← transAfter]
    exact ih _ (dset_nodup _ _ h)

theorem targetKey_subset (arena : Arena) (curKey : Finset Nat) (c : Char) :
    targetKey arena curKey c ⊆ arenaTargets arena := by
  intro t ht
  rcases Finset.mem_union.mp (epsClosure_subset ht) with h | h
  · rw [sortedKeys_toFinset] at h
    exact move_subset_arenaTargets h
  · exact h

theorem mem_dkeys_of_dget {κ α : Type} [DecidableEq κ] {d : List (κ × α)} {k : κ} {v : α}
    (h : dget d k = some v) : k ∈ dkeys d := by
  by_contra h'
  rw [(dget_none_iff _ _).mpr h'] at h
  cases h

/-- Full characterisation of one pass of the symbol loop over a dequeued
DFA state `curKey`: the map gains exactly the newly discovered defining
sets (`added`, also appended to the pending list), every other entry is
untouched, and `curKey`'s entry records one transition per probed symbol. -/
theorem processSymbols_spec (arena : Arena) (na : Nat) (curKey : Finset Nat) :
    ∀ (cs : List Char) (m : DFAMap) (new : List (Finset Nat)) (st₀ : DFAState),
      dget m curKey = some st₀ →
      ∃ added : List (Finset Nat),
        (cs.foldl (processSymbol arena na curKey) (m, new)).2 = new ++ added ∧
        dkeys (cs.foldl (processSymbol arena na curKey) (m, new)).1 = dkeys m ++ added ∧
        added.Nodup ∧
        (∀ k ∈ added, k ∉ dkeys m ∧ ∃ c ∈ cs, k = targetKey arena curKey c) ∧
        (∀ k ∈ added, dget (cs.foldl (processSymbol arena na curKey) (m, new)).1 k
          = some ⟨[], na ∈ k⟩) ∧
        (∀ k, k ≠ curKey → k ∉ added →
          dget (cs.foldl (processSymbol arena na curKey) (m, new)).1 k = dget m k) ∧
        dget (cs.foldl (processSymbol arena na curKey) (m, new)).1 curKey
          = some ⟨transAfter arena curKey cs st₀.transitions, st₀.is_accept⟩ ∧
        (∀ c ∈ cs, targetKey arena curKey c
          ∈ dkeys (cs.foldl (processSymbol arena na curKey) (m, new)).1) := by
  intro cs
  induction cs with
  | nil =>
    intro m new st₀ h₀
    exact ⟨[], by simp, by simp, List.nodup_nil, by simp, by simp,
      fun k _ _ => rfl, by simpa [transAfter] using h₀, by simp⟩
  | cons c cs ih =>
    intro m new st₀ h₀
    cases hK : dget m (targetKey arena curKey c) with
    | some w =>
      have hstep : processSymbol arena na curKey (m, new) c
          = (updateTrans m curKey c (targetKey arena curKey c), new) := by
        simp [processSymbol, hK]
      have h₁ : dget (updateTrans m curKey c (targetKey arena curKey c)) curKey
          = some ⟨dset st₀.transitions c (targetKey arena curKey c), st₀.is_accept⟩ :=
        updateTrans_dget_self c _ h₀
      obtain ⟨added, g1, g2, g3, g4, g5, g6, g7, g8⟩ := ih _ new _ h₁
      rw [List.foldl_cons, hstep]
      refine ⟨added, g1, ?_, g3, ?_, g5, ?_, ?_, ?_⟩
      · rw [g2, updateTrans_dkeys]
      · intro k hk
        obtain ⟨hk1, c', hc', hk2⟩ := g4 k hk
        rw [updateTrans_dkeys] at hk1
        exact ⟨hk1, c', List.mem_cons_of_mem _ hc', hk2⟩
      · intro k hk1 hk2
        rw [g6 k hk1 hk2, updateTrans_dget_ne _ _ _ _ _ hk1]
      · rw [g7]
        simp [transAfter, List.foldl_cons]
      · intro c' hc'
        rcases List.mem_cons.mp hc' with h | h
        · have hmem := mem_dkeys_of_dget hK
          rw [g2, updateTrans_dkeys]
          exact h ▸ List.mem_append_left _ hmem
        · exact g8 c' h
    | none =>
      have hne : curKey ≠ targetKey arena curKey c := by
        intro h
        rw [← h] at hK
        rw [h₀] at hK
        cases hK
      have hstep : processSymbol arena na curKey (m, new) c
          = (updateTrans (dset m (targetKey arena curKey c)
              ⟨[], na ∈ targetKey arena curKey c⟩) curKey c (targetKey arena curKey c),
             new ++ [targetKey arena curKey c]) := by
        simp [processSymbol, hK]
      have hds : dget (dset m (targetKey arena curKey c)
          ⟨[], na ∈ targetKey arena curKey c⟩) curKey = some st₀ := by
        rw [dget_dset_ne _ _ _ _ hne, h₀]
      have h₁ : dget (updateTrans (dset m (targetKey arena curKey c)
          ⟨[], na ∈ targetKey arena curKey c⟩) curKey c (targetKey arena curKey c)) curKey
          = some ⟨dset st₀.transitions c (targetKey arena curKey c), st₀.is_accept⟩ :=
        updateTrans_dget_self c _ hds
      obtain ⟨added, g1, g2, g3, g4, g5, g6, g7, g8⟩ := ih _ (new ++ [targetKey arena curKey c]) _ h₁
      have hkeys : dkeys (updateTrans (dset m (targetKey arena curKey c)
          ⟨[], na ∈ targetKey arena curKey c⟩) curKey c (targetKey arena curKey c))
          = dkeys m ++ [targetKey arena curKey c] := by
        rw [updateTrans_dkeys, (dkeys_dset m _ _).1 hK]
      have hKnotm : targetKey arena curKey c ∉ dkeys m := (dget_none_iff m _).mp hK
      have hKadded : targetKey arena curKey c ∉ added := by
        intro h
        have := (g4 _ h).1
        rw [hkeys] at this
        exact this (List.mem_append_right _ (List.mem_singleton_self _))
      rw [List.foldl_cons, hstep]
      refine ⟨targetKey arena curKey c :: added, ?_, ?_, ?_, ?_, ?_, ?_, ?_, ?_⟩
      · rw [g1, List.append_assoc]
        rfl
      · rw [g2, hkeys, List.append_assoc]
        rfl
      · exact List.nodup_cons.mpr ⟨hKadded, g3⟩
      · intro k hk
        rcases List.mem_cons.mp hk with h | h
        · exact ⟨h ▸ hKnotm, c, List.mem_cons_self _ _, h⟩
        · obtain ⟨hk1, c', hc', hk2⟩ := g4 k h
          rw [hkeys] at hk1
          exact ⟨fun hm => hk1 (List.mem_append_left _ hm), c',
            List.mem_cons_of_mem _ hc', hk2⟩
      · intro k hk
        rcases List.mem_cons.mp hk with h | h
        · subst h
          rw [g6 _ (Ne.symm hne) hKadded, updateTrans_dget_ne _ _ _ _ _ (Ne.symm hne),
            dget_dset_self]
        · exact g5 k h
      · intro k hk1 hk2
        have hk3 : k ∉ added := fun h => hk2 (List.mem_cons_of_mem _ h)
        have hk4 : k ≠ targetKey arena curKey c := fun h => hk2 (h ▸ List.mem_cons_self _ _)
        rw [g6 k hk1 hk3, updateTrans_dget_ne _ _ _ _ _ hk1, dget_dset_ne _ _ _ _ hk4]
      · rw [g7]
        simp [transAfter, List.foldl_cons]
      · intro c' hc'
        rcases List.mem_cons.mp hc' with h | h
        · rw [g2, hkeys]
          exact h ▸ List.mem_append_left _
            (List.mem_append_right _ (List.mem_singleton_self _))
        · exact g8 c' h

theorem addMissing_spec (m : DFAMap) (curKey : Finset Nat) (symbol : Char) :
    dkeys (addMissing curKey m symbol) = dkeys m ∧
    (∀ k, k ≠ curKey → dget (addMissing curKey m symbol) k = dget m k) ∧
    (∀ st, dget m curKey = some st →
      ∃ st', dget (addMissing curKey m symbol) curKey = some st' ∧
        st'.is_accept = st.is_accept ∧
        (∀ c v, dget st.transitions c = some v → dget st'.transitions c = some v) ∧
        (∀ c v, dget st'.transitions c = some v →
          dget st.transitions c = some v ∨ (c = symbol ∧ v = ∅)) ∧
        (dget st'.transitions symbol).isSome ∧
        (∀ c, (dget st.transitions c).isSome → (dget st'.transitions c).isSome) ∧
        ((dkeys st.transitions).Nodup → (dkeys st'.transitions).Nodup)) := by
  cases h₀ : dget m curKey with
  | none =>
    refine ⟨by simp [addMissing, h₀], fun k _ => by simp [addMissing, h₀], ?_⟩
    intro st hst
    exact Option.noConfusion hst
  | some st =>
    cases hs : dget st.transitions symbol with
    | some w =>
      refine ⟨by simp [addMissing, h₀, hs], fun k _ => by simp [addMissing, h₀, hs], ?_⟩
      intro st' hst'
      cases hst'
      exact ⟨st, by simp [addMissing, h₀, hs], rfl, fun _ _ h => h,
        fun _ _ h => Or.inl h, by simp [hs], fun _ h => h, fun h => h⟩
    | none =>
      have hres : addMissing curKey m symbol = updateTrans m curKey symbol ∅ := by
        simp [addMissing, h₀, hs]
      refine ⟨by rw [hres, updateTrans_dkeys],
        fun k hk => by rw [hres, updateTrans_dget_ne _ _ _ _ _ hk], ?_⟩
      intro st' hst'
      cases hst'
      refine ⟨⟨dset st.transitions symbol ∅, st.is_accept⟩,
        by rw [hres]; exact updateTrans_dget_self _ _ h₀, rfl, ?_, ?_, ?_, ?_, ?_⟩
      · intro c v h
        by_cases hc : c = symbol
        · subst hc
          rw [hs] at h
          cases h
        · rwa [dget_dset_ne _ _ _ _ hc]
      · intro c v h
        by_cases hc : c = symbol
        · subst hc
          rw [dget_dset_self] at h
          cases h
          exact Or.inr ⟨rfl, rfl⟩
        · rw [dget_dset_ne _ _ _ _ hc] at h
          exact Or.inl h
      · simp [dget_dset_self]
      · intro c h
        exact dget_dset_isSome _ _ _ _ h
      · exact dset_nodup _ _

theorem completeAB_spec (m : DFAMap) (curKey : Finset Nat) :
    dkeys (completeAB m curKey) = dkeys m ∧
    (∀ k, k ≠ curKey → dget (completeAB m curKey) k = dget m k) ∧
    (∀ st, dget m curKey = some st →
      ∃ st', dget (completeAB m curKey) curKey = some st' ∧
        st'.is_accept = st.is_accept ∧
        (∀ c v, dget st.transitions c = some v → dget st'.transitions c = some v) ∧
        (∀ c v, dget st'.transitions c = some v →
          dget st.transitions c = some v ∨ ((c = 'a' ∨ c = 'b') ∧ v = ∅)) ∧
        (dget st'.transitions 'a').isSome ∧ (dget st'.transitions 'b').isSome ∧
        ((dkeys st.transitions).Nodup → (dkeys st'.transitions).Nodup)) := by
  have hAB : completeAB m curKey = addMissing curKey (addMissing curKey m 'a') 'b' := rfl
  obtain ⟨a1, a2, a3⟩ := addMissing_spec m curKey 'a'
  obtain ⟨b1, b2, b3⟩ := addMissing_spec (addMissing curKey m 'a') curKey 'b'
  refine ⟨by rw [hAB, b1, a1], fun k hk => by rw [hAB, b2 k hk, a2 k hk], ?_⟩
  intro st hst
  obtain ⟨st₁, c1, c2, c3, c4, c5, c6, c7⟩ := a3 st hst
  obtain ⟨st₂, d1, d2, d3, d4, d5, d6, d7⟩ := b3 st₁ c1
  refine ⟨st₂, by rw [hAB]; exact d1, by rw [d2, c2], ?_, ?_, ?_, ?_, ?_⟩
  · intro c v h
    exact d3 c v (c3 c v h)
  · intro c v h
    rcases d4 c v h with h' | h'
    · rcases c4 c v h' with h'' | h''
      · exact Or.inl h''
      · exact Or.inr ⟨Or.inl h''.1, h''.2⟩
    · exact Or.inr ⟨Or.inr h'.1, h'.2⟩
  · exact d6 'a' c5
  · exact d5
  · exact fun h => d7 (c7 h)

/-! ### Termination of the determinizer -/

theorem dkeys_length_le {m : DFAMap} {U : Finset Nat} (hnd : (dkeys m).Nodup)
    (hsub : ∀ k ∈ dkeys m, k ⊆ U) : m.length ≤ 2 ^ U.card := by
  have h1 : (dkeys m).toFinset.card = (dkeys m).length := List.toFinset_card_of_nodup hnd
  have h2 : (dkeys m).toFinset ⊆ U.powerset := by
    intro k hk
    exact Finset.mem_powerset.mpr (hsub k (List.mem_toFinset.mp hk))
  have h3 := Finset.card_le_card h2
  rw [Finset.card_powerset] at h3
  have h4 : (dkeys m).length = m.length := List.length_map _ _
  omega

/-- Fuel sufficiency for the worklist: every enqueued defining set is new
to the map and lives in the powerset of `U`, so
`|queue| + 2 ^ |U| - |map|` iterations drain the queue. -/
theorem dfaLoop_some (arena : Arena) (na : Nat) (U : Finset Nat)
    (hU : arenaTargets arena ⊆ U) :
    ∀ (fuel : Nat) (queue : List (Finset Nat)) (m : DFAMap),
      (dkeys m).Nodup →
      (∀ k ∈ dkeys m, k ⊆ U) →
      (∀ k ∈ queue, k ∈ dkeys m) →
      queue.length + 2 ^ U.card ≤ fuel + m.length →
      (dfaLoop arena na fuel queue m).isSome := by
  intro fuel
  induction fuel with
  | zero =>
    intro queue m hnd hsub hq hf
    match queue with
    | [] => simp [dfaLoop]
    | k :: queue =>
      exfalso
      have := dkeys_length_le hnd hsub
      simp only [List.length_cons, Nat.zero_add] at hf
      omega
  | succ fuel ih =>
    intro queue m hnd hsub hq hf
    match queue with
    | [] => simp [dfaLoop]
    | cur :: queue =>
      have hcur : (dget m cur).isSome :=
        dget_isSome_of_mem_dkeys _ _ (hq cur (List.mem_cons_self _ _))
      obtain ⟨st₀, hst₀⟩ := Option.isSome_iff_exists.mp hcur
      obtain ⟨added, g1, g2, g3, g4, g5, g6, g7, g8⟩ :=
        processSymbols_spec arena na cur (sortedKeys (symbolsOf arena cur)) m [] st₀ hst₀
      obtain ⟨q1, q2, q3⟩ := completeAB_spec
        ((sortedKeys (symbolsOf arena cur)).foldl (processSymbol arena na cur) (m, [])).1 cur
      show (dfaLoop arena na fuel
        (queue ++ ((sortedKeys (symbolsOf arena cur)).foldl
          (processSymbol arena na cur) (m, [])).2)
        (completeAB ((sortedKeys (symbolsOf arena cur)).foldl
          (processSymbol arena na cur) (m, [])).1 cur)).isSome
      rw [g1]
      have hkeys : dkeys (completeAB ((sortedKeys (symbolsOf arena cur)).foldl
          (processSymbol arena na cur) (m, [])).1 cur) = dkeys m ++ added := by
        rw [q1, g2]
      refine ih _ _ ?_ ?_ ?_ ?_
      · rw [hkeys]
        refine List.Nodup.append hnd g3 ?_
        intro k hk1 hk2
        exact (g4 k hk2).1 hk1
      · intro k hk
        rw [hkeys] at hk
        rcases List.mem_append.mp hk with h | h
        · exact hsub k h
        · obtain ⟨_, c, _, hkc⟩ := g4 k h
          exact hkc ▸ (targetKey_subset arena cur c).trans hU
      · intro k hk
        rw [hkeys]
        rcases List.mem_append.mp hk with h | h
        · exact List.mem_append_left _ (hq k (List.mem_cons_of_mem _ h))
        · simpa using Or.inr h
      · have hlen : (completeAB ((sortedKeys (symbolsOf arena cur)).foldl
            (processSymbol arena na cur) (m, [])).1 cur).length = m.length + added.length := by
          have e1 : dkeys (completeAB ((sortedKeys (symbolsOf arena cur)).foldl
              (processSymbol arena na cur) (m, [])).1 cur) = dkeys m ++ added := hkeys
          have e2 := congrArg List.length e1
          simp only [dkeys, List.length_map, List.length_append] at e2
          omega
        simp only [List.length_cons, List.length_append, List.length_nil] at hf ⊢
        omega

/-- `nfa_to_dfa` terminates on every input: the chosen fuel always
suffices. -/
theorem mem_startClosure (arena : Arena) (ns : Nat) : ns ∈ epsClosure arena [ns] :=
  mem_epsClosure.mpr ⟨ns, List.mem_singleton_self _, Relation.ReflTransGen.refl⟩

theorem startClosure_ne_empty (arena : Arena) (ns : Nat) :
    epsClosure arena [ns] ≠ ∅ :=
  fun h => by simpa [h] using mem_startClosure arena ns

/-- The seeded map written out: both initial entries, in insertion order. -/
theorem initMap_eq (arena : Arena) (ns na : Nat) :
    initMap arena ns na
      = [(epsClosure arena [ns], ⟨[], na ∈ epsClosure arena [ns]⟩),
         (∅, ⟨[('a', ∅), ('b', ∅)], false⟩)] := by
  have h := startClosure_ne_empty arena ns
  have hne : ¬(∅ = epsClosure arena [ns]) := fun he => h he.symm
  simp [initMap, dset, hne]

theorem startClosure_subset_universe (arena : Arena) (ns : Nat) :
    epsClosure arena [ns] ⊆ stateUniverse arena ns := by
  intro x hx
  rcases Finset.mem_union.mp (epsClosure_subset hx) with h | h
  · simp only [List.toFinset_cons, List.toFinset_nil, insert_emptyc_eq,
      Finset.mem_singleton] at h
    exact h ▸ Finset.mem_insert_self _ _
  · exact Finset.mem_insert_of_mem h

theorem nfaToDfa_isSome (arena : Arena) (ns na : Nat) : (nfaToDfa arena ns na).isSome := by
  have hne := startClosure_ne_empty arena ns
  have hm1 := initMap_eq arena ns na
  have hsub := startClosure_subset_universe arena ns
  have hloop := dfaLoop_some arena na (stateUniverse arena ns)
    (Finset.subset_insert _ _)
    (2 ^ (stateUniverse arena ns).card + 1)
    [epsClosure arena [ns]]
    (initMap arena ns na)
    (by rw [hm1]; simp [dkeys]; exact hne)
    (by
      rw [hm1]
      intro k hk
      simp only [dkeys, List.map_cons, List.map_nil] at hk
      rcases List.mem_cons.mp hk with h | h
      · exact h ▸ hsub
      · simp at h
        simp [h])
    (by
      rw [hm1]
      intro k hk
      simp only [List.mem_singleton] at hk
      simp [dkeys, hk])
    (by
      rw [hm1]
      simp
      omega)
  unfold nfaToDfa
  simpa using hloop

/-! ### Invariants of the final DFA map: accept flags and totality -/

theorem dfaLoop_final (arena : Arena) (na : Nat) :
    ∀ (fuel : Nat) (queue : List (Finset Nat)) (m mF : DFAMap),
      dfaLoop arena na fuel queue m = some mF →
      (∀ k ∈ queue, k ∈ dkeys m) →
      (∀ k st, dget m k = some st → st.is_accept = decide (na ∈ k)) →
      (∀ k st, dget m k = some st → (dkeys st.transitions).Nodup) →
      (∀ k st, dget m k = some st → k ∉ queue →
        (dget st.transitions 'a').isSome ∧ (dget st.transitions 'b').isSome) →
      ∀ k st, dget mF k = some st →
        st.is_accept = decide (na ∈ k) ∧ (dkeys st.transitions).Nodup ∧
        (dget st.transitions 'a').isSome ∧ (dget st.transitions 'b').isSome := by
  intro fuel
  induction fuel with
  | zero =>
    intro queue m mF hF hq hacc hnd hab k st hk
    match queue with
    | [] =>
      simp only [dfaLoop] at hF
      cases hF
      exact ⟨hacc k st hk, hnd k st hk, hab k st hk (by simp)⟩
    | q :: queue => simp [dfaLoop] at hF
  | succ fuel ih =>
    intro queue m mF hF hq hacc hnd hab k st hk
    match queue with
    | [] =>
      simp only [dfaLoop] at hF
      cases hF
      exact ⟨hacc k st hk, hnd k st hk, hab k st hk (by simp)⟩
    | cur :: queue =>
      have hcur : (dget m cur).isSome :=
        dget_isSome_of_mem_dkeys _ _ (hq cur (List.mem_cons_self _ _))
      obtain ⟨st₀, hst₀⟩ := Option.isSome_iff_exists.mp hcur
      obtain ⟨added, g1, g2, g3, g4, g5, g6, g7, g8⟩ :=
        processSymbols_spec arena na cur (sortedKeys (symbolsOf arena cur)) m [] st₀ hst₀
      obtain ⟨q1, q2, q3⟩ := completeAB_spec
        ((sortedKeys (symbolsOf arena cur)).foldl (processSymbol arena na cur) (m, [])).1 cur
      obtain ⟨st₂, d1, d2, d3, d4, d5, d6, d7⟩ := q3 _ g7
      have hF' : dfaLoop arena na fuel
          (queue ++ ((sortedKeys (symbolsOf arena cur)).foldl
            (processSymbol arena na cur) (m, [])).2)
          (completeAB ((sortedKeys (symbolsOf arena cur)).foldl
            (processSymbol arena na cur) (m, [])).1 cur) = some mF := hF
      rw [g1] at hF'
      have hkeys : dkeys (completeAB ((sortedKeys (symbolsOf arena cur)).foldl
          (processSymbol arena na cur) (m, [])).1 cur) = dkeys m ++ added := by
        rw [q1, g2]
      have hget : ∀ k', k' ≠ cur →
          dget (completeAB ((sortedKeys (symbolsOf arena cur)).foldl
            (processSymbol arena na cur) (m, [])).1 cur) k'
          = dget ((sortedKeys (symbolsOf arena cur)).foldl
            (processSymbol arena na cur) (m, [])).1 k' := q2
      refine ih _ _ _ hF' ?_ ?_ ?_ ?_ k st hk
      · intro k' hk'
        rw [hkeys]
        rcases List.mem_append.mp hk' with h | h
        · exact List.mem_append_left _ (hq k' (List.mem_cons_of_mem _ h))
        · simp at h
          exact List.mem_append_right _ h
      · intro k' st' hk'
        by_cases hc : k' = cur
        · subst hc
          rw [d1] at hk'
          cases hk'
          rw [d2]
          exact hacc _ st₀ hst₀
        · rw [hget k' hc] at hk'
          by_cases hadd : k' ∈ added
          · rw [g5 k' hadd] at hk'
            cases hk'
            rfl
          · exact hacc k' st' (by rw [← g6 k' hc hadd]; exact hk')
      · intro k' st' hk'
        by_cases hc : k' = cur
        · subst hc
          rw [d1] at hk'
          cases hk'
          exact d7 (transAfter_nodup arena _ _ _ (hnd _ st₀ hst₀))
        · rw [hget k' hc] at hk'
          by_cases hadd : k' ∈ added
          · rw [g5 k' hadd] at hk'
            cases hk'
            exact List.nodup_nil
          · exact hnd k' st' (by rw [← g6 k' hc hadd]; exact hk')
      · intro k' st' hk' hnq
        by_cases hc : k' = cur
        · subst hc
          rw [d1] at hk'
          cases hk'
          exact ⟨d5, d6⟩
        · have hnq1 : k' ∉ queue := fun h => hnq (List.mem_append_left _ h)
          have hadd : k' ∉ added := fun h => hnq (List.mem_append_right _ h)
          rw [hget k' hc, g6 k' hc hadd] at hk'
          exact hab k' st' hk' (by
            intro h
            rcases List.mem_cons.mp h with h | h
            · exact hc h
            · exact hnq1 h)

theorem nfaToDfa_some_elim {arena : Arena} {ns na : Nat} {stK : Finset Nat} {m : DFAMap}
    (h : nfaToDfa arena ns na = some (stK, m)) :
    stK = epsClosure arena [ns] ∧
    dfaLoop arena na (2 ^ (stateUniverse arena ns).card + 1)
      [epsClosure arena [ns]] (initMap arena ns na) = some m := by
  simp only [nfaToDfa] at h
  cases hL : dfaLoop arena na (2 ^ (stateUniverse arena ns).card + 1)
      [epsClosure arena [ns]] (initMap arena ns na) with
  | none =>
    rw [hL] at h
    cases h
  | some mF =>
    rw [hL] at h
    simp only [Option.map_some', Option.some.injEq, Prod.mk.injEq] at h
    exact ⟨h.1.symm, congrArg some h.2⟩

/-- Every entry of the final `dfa_states` map has the right accept flag and
exactly one transition on each of `'a'` and `'b'`. -/
theorem nfaToDfa_entries {arena : Arena} {ns na : Nat} {stK : Finset Nat} {m : DFAMap}
    (h : nfaToDfa arena ns na = some (stK, m)) :
    ∀ k st, dget m k = some st →
      st.is_accept = decide (na ∈ k) ∧ (dkeys st.transitions).Nodup ∧
      (dget st.transitions 'a').isSome ∧ (dget st.transitions 'b').isSome := by
  obtain ⟨-, hL⟩ := nfaToDfa_some_elim h
  refine dfaLoop_final arena na _ _ _ _ hL ?_ ?_ ?_ ?_
  · intro k hk
    simp only [List.mem_singleton] at hk
    rw [initMap_eq]
    simp [dkeys, hk]
  · intro k st hk
    rw [initMap_eq] at hk
    by_cases h1 : k = epsClosure arena [ns]
    · simp only [dget, if_pos h1] at hk
      cases hk
      rw [h1]
    · by_cases h2 : k = ∅
      · simp only [dget, if_neg h1, if_pos h2] at hk
        cases hk
        simp [h2]
      · simp [dget, h1, h2] at hk
  · intro k st hk
    rw [initMap_eq] at hk
    by_cases h1 : k = epsClosure arena [ns]
    · simp only [dget, if_pos h1] at hk
      cases hk
      simp [dkeys]
    · by_cases h2 : k = ∅
      · simp only [dget, if_neg h1, if_pos h2] at hk
        cases hk
        simp [dkeys]
      · simp [dget, h1, h2] at hk
  · intro k st hk hq
    simp only [List.mem_singleton] at hq
    rw [initMap_eq] at hk
    by_cases h1 : k = epsClosure arena [ns]
    · exact absurd h1 hq
    · by_cases h2 : k = ∅
      · simp only [dget, if_neg h1, if_pos h2] at hk
        cases hk
        simp [dget]
      · simp [dget, h1, h2] at hk

/-! ### Reachability of the states in the final map -/

/-- One DFA transition recorded in the map: from the state keyed `k`,
some symbol's transition leads to the state keyed `k'`. -/
def MapEdge (m : DFAMap) (k k' : Finset Nat) : Prop :=
  ∃ st c, dget m k = some st ∧ dget st.transitions c = some k'

/-- Reachability along recorded transitions. -/
def MapReach (m : DFAMap) (k₀ k : Finset Nat) : Prop :=
  Relation.ReflTransGen (MapEdge m) k₀ k

/-- Transitions, once recorded, survive to the final map: every queued
state still has an empty transition dictionary, so the loop only ever adds
`(symbol, target)` pairs and never overwrites one. -/
theorem dfaLoop_mono (arena : Arena) (na : Nat) :
    ∀ (fuel : Nat) (queue : List (Finset Nat)) (m mF : DFAMap),
      dfaLoop arena na fuel queue m = some mF →
      queue.Nodup →
      (∀ k ∈ queue, ∃ st, dget m k = some st ∧ st.transitions = []) →
      ∀ k st c v, dget m k = some st → dget st.transitions c = some v →
        ∃ st', dget mF k = some st' ∧ dget st'.transitions c = some v := by
  intro fuel
  induction fuel with
  | zero =>
    intro queue m mF hF _ _ k st c v hk hc
    match queue with
    | [] =>
      simp only [dfaLoop] at hF
      cases hF
      exact ⟨st, hk, hc⟩
    | q :: queue => simp [dfaLoop] at hF
  | succ fuel ih =>
    intro queue m mF hF hnd hG k st c v hk hc
    match queue with
    | [] =>
      simp only [dfaLoop] at hF
      cases hF
      exact ⟨st, hk, hc⟩
    | cur :: queue =>
      obtain ⟨st₀, hst₀, hemp⟩ := hG cur (List.mem_cons_self _ _)
      obtain ⟨added, g1, g2, g3, g4, g5, g6, g7, g8⟩ :=
        processSymbols_spec arena na cur (sortedKeys (symbolsOf arena cur)) m [] st₀ hst₀
      obtain ⟨q1, q2, q3⟩ := completeAB_spec
        ((sortedKeys (symbolsOf arena cur)).foldl (processSymbol arena na cur) (m, [])).1 cur
      have hF' : dfaLoop arena na fuel
          (queue ++ ((sortedKeys (symbolsOf arena cur)).foldl
            (processSymbol arena na cur) (m, [])).2)
          (completeAB ((sortedKeys (symbolsOf arena cur)).foldl
            (processSymbol arena na cur) (m, [])).1 cur) = some mF := hF
      rw [g1] at hF'
      have hcurne : k ≠ cur := by
        intro h
        subst h
        rw [hst₀] at hk
        cases hk
        rw [hemp] at hc
        cases hc
      have hrest : queue.Nodup := (List.nodup_cons.mp hnd).2
      have hcurnotin : cur ∉ queue := (List.nodup_cons.mp hnd).1
      have hGnew : ∀ k' ∈ queue ++ added,
          ∃ st', dget (completeAB ((sortedKeys (symbolsOf arena cur)).foldl
            (processSymbol arena na cur) (m, [])).1 cur) k' = some st' ∧
            st'.transitions = [] := by
        intro k' hk'
        rcases List.mem_append.mp hk' with h | h
        · obtain ⟨st', hst', hemp'⟩ := hG k' (List.mem_cons_of_mem _ h)
          have hne : k' ≠ cur := fun he => hcurnotin (he ▸ h)
          refine ⟨st', ?_, hemp'⟩
          rw [q2 k' hne, g6 k' hne ?_]
          · exact hst'
          · intro habs
            exact (g4 k' habs).1 (mem_dkeys_of_dget hst')
        · have hne : k' ≠ cur := by
            intro he
            exact (g4 k' h).1 (he ▸ mem_dkeys_of_dget hst₀)
          exact ⟨⟨[], na ∈ k'⟩, by rw [q2 k' hne]; exact g5 k' h, rfl⟩
      have hnd' : (queue ++ added).Nodup := by
        refine List.Nodup.append hrest g3 ?_
        intro x hx1 hx2
        obtain ⟨st', hst', _⟩ := hG x (List.mem_cons_of_mem _ hx1)
        exact (g4 x hx2).1 (mem_dkeys_of_dget hst')
      refine ih _ _ _ hF' hnd' hGnew k st c v ?_ hc
      rw [q2 k hcurne, g6 k hcurne ?_]
      · exact hk
      · intro habs
        exact (g4 k habs).1 (mem_dkeys_of_dget hk)

/-- Every key of the final map — other than the dead state's `∅` — is
reachable from the start state along recorded transitions. -/
theorem dfaLoop_reach (arena : Arena) (na : Nat) (startK : Finset Nat) :
    ∀ (fuel : Nat) (queue : List (Finset Nat)) (m mF : DFAMap),
      dfaLoop arena na fuel queue m = some mF →
      queue.Nodup →
      (∀ k ∈ queue, ∃ st, dget m k = some st ∧ st.transitions = []) →
      (∀ k ∈ queue, MapReach mF startK k) →
      (∀ k ∈ dkeys m, k = ∅ ∨ MapReach mF startK k) →
      ∀ k ∈ dkeys mF, k = ∅ ∨ MapReach mF startK k := by
  intro fuel
  induction fuel with
  | zero =>
    intro queue m mF hF _ _ _ hR
    match queue with
    | [] =>
      simp only [dfaLoop] at hF
      cases hF
      exact hR
    | q :: queue => simp [dfaLoop] at hF
  | succ fuel ih =>
    intro queue m mF hF hnd hG hQ hR
    match queue with
    | [] =>
      simp only [dfaLoop] at hF
      cases hF
      exact hR
    | cur :: queue =>
      obtain ⟨st₀, hst₀, hemp⟩ := hG cur (List.mem_cons_self _ _)
      obtain ⟨added, g1, g2, g3, g4, g5, g6, g7, g8⟩ :=
        processSymbols_spec arena na cur (sortedKeys (symbolsOf arena cur)) m [] st₀ hst₀
      obtain ⟨q1, q2, q3⟩ := completeAB_spec
        ((sortedKeys (symbolsOf arena cur)).foldl (processSymbol arena na cur) (m, [])).1 cur
      obtain ⟨st₂, d1, d2, d3, d4, d5, d6, d7⟩ := q3 _ g7
      have hF' : dfaLoop arena na fuel
          (queue ++ ((sortedKeys (symbolsOf arena cur)).foldl
            (processSymbol arena na cur) (m, [])).2)
          (completeAB ((sortedKeys (symbolsOf arena cur)).foldl
            (processSymbol arena na cur) (m, [])).1 cur) = some mF := hF
      rw [g1] at hF'
      have hrest : queue.Nodup := (List.nodup_cons.mp hnd).2
      have hcurnotin : cur ∉ queue := (List.nodup_cons.mp hnd).1
      have hGnew : ∀ k' ∈ queue ++ added,
          ∃ st', dget (completeAB ((sortedKeys (symbolsOf arena cur)).foldl
            (processSymbol arena na cur) (m, [])).1 cur) k' = some st' ∧
            st'.transitions = [] := by
        intro k' hk'
        rcases List.mem_append.mp hk' with h | h
        · obtain ⟨st', hst', hemp'⟩ := hG k' (List.mem_cons_of_mem _ h)
          have hne : k' ≠ cur := fun he => hcurnotin (he ▸ h)
          refine ⟨st', ?_, hemp'⟩
          rw [q2 k' hne, g6 k' hne ?_]
          · exact hst'
          · intro habs
            exact (g4 k' habs).1 (mem_dkeys_of_dget hst')
        · have hne : k' ≠ cur := by
            intro he
            exact (g4 k' h).1 (he ▸ mem_dkeys_of_dget hst₀)
          exact ⟨⟨[], na ∈ k'⟩, by rw [q2 k' hne]; exact g5 k' h, rfl⟩
      have hnd' : (queue ++ added).Nodup := by
        refine List.Nodup.append hrest g3 ?_
        intro x hx1 hx2
        obtain ⟨st', hst', _⟩ := hG x (List.mem_cons_of_mem _ hx1)
        exact (g4 x hx2).1 (mem_dkeys_of_dget hst')
      -- each added key is one recorded transition away from `cur`, and the
      -- record survives to the final map
      have haddedReach : ∀ k' ∈ added, MapReach mF startK k' := by
        intro k' hk'
        obtain ⟨-, c, hc, hkc⟩ := g4 k' hk'
        have htrans : dget st₂.transitions c = some k' := by
          refine d3 c k' ?_
          have := transAfter_dget_mem arena cur (sortedKeys (symbolsOf arena cur))
            st₀.transitions c (sortedKeys_nodup _) hc
          rw [hemp] at this ⊢
          rw [this, hkc]
        obtain ⟨st₃, hst₃, hc₃⟩ := dfaLoop_mono arena na fuel _ _ _ hF' hnd' hGnew
          cur st₂ c k' d1 htrans
        exact Relation.ReflTransGen.tail (hQ cur (List.mem_cons_self _ _))
          ⟨st₃, c, hst₃, hc₃⟩
      refine ih _ _ _ hF' hnd' hGnew ?_ ?_
      · intro k' hk'
        rcases List.mem_append.mp hk' with h | h
        · exact hQ k' (List.mem_cons_of_mem _ h)
        · exact haddedReach k' h
      · intro k' hk'
        rw [q1, g2] at hk'
        rcases List.mem_append.mp hk' with h | h
        · exact hR k' h
        · exact Or.inr (haddedReach k' h)

/-- The final map is closed under recorded transitions: every transition
target is itself a key of the map. -/
theorem dfaLoop_closed (arena : Arena) (na : Nat) :
    ∀ (fuel : Nat) (queue : List (Finset Nat)) (m mF : DFAMap),
      dfaLoop arena na fuel queue m = some mF →
      (∀ k ∈ queue, k ∈ dkeys m) →
      ∅ ∈ dkeys m →
      (∀ k st c v, dget m k = some st → dget st.transitions c = some v → v ∈ dkeys m) →
      ∀ k st c v, dget mF k = some st → dget st.transitions c = some v → v ∈ dkeys mF := by
  intro fuel
  induction fuel with
  | zero =>
    intro queue m mF hF _ _ hC
    match queue with
    | [] =>
      simp only [dfaLoop] at hF
      cases hF
      exact hC
    | q :: queue => simp [dfaLoop] at hF
  | succ fuel ih =>
    intro queue m mF hF hq hdead hC
    match queue with
    | [] =>
      simp only [dfaLoop] at hF
      cases hF
      exact hC
    | cur :: queue =>
      have hcur : (dget m cur).isSome :=
        dget_isSome_of_mem_dkeys _ _ (hq cur (List.mem_cons_self _ _))
      obtain ⟨st₀, hst₀⟩ := Option.isSome_iff_exists.mp hcur
      obtain ⟨added, g1, g2, g3, g4, g5, g6, g7, g8⟩ :=
        processSymbols_spec arena na cur (sortedKeys (symbolsOf arena cur)) m [] st₀ hst₀
      obtain ⟨q1, q2, q3⟩ := completeAB_spec
        ((sortedKeys (symbolsOf arena cur)).foldl (processSymbol arena na cur) (m, [])).1 cur
      obtain ⟨st₂, d1, d2, d3, d4, d5, d6, d7⟩ := q3 _ g7
      have hF' : dfaLoop arena na fuel
          (queue ++ ((sortedKeys (symbolsOf arena cur)).foldl
            (processSymbol arena na cur) (m, [])).2)
          (completeAB ((sortedKeys (symbolsOf arena cur)).foldl
            (processSymbol arena na cur) (m, [])).1 cur) = some mF := hF
      rw [g1] at hF'
      have hkeys : dkeys (completeAB ((sortedKeys (symbolsOf arena cur)).foldl
          (processSymbol arena na cur) (m, [])).1 cur) = dkeys m ++ added := by
        rw [q1, g2]
      refine ih _ _ _ hF' ?_ ?_ ?_
      · intro k' hk'
        rw [hkeys]
        rcases List.mem_append.mp hk' with h | h
        · exact List.mem_append_left _ (hq k' (List.mem_cons_of_mem _ h))
        · exact List.mem_append_right _ h
      · rw [hkeys]
        exact List.mem_append_left _ hdead
      · intro k' st' c v hk' hc'
        rw [hkeys]
        by_cases hne : k' = cur
        · subst hne
          rw [d1] at hk'
          cases hk'
          rcases d4 c v hc' with h | h
          · rcases transAfter_dget_some arena _ _ _ c v h with h' | h'
            · exact List.mem_append_left _ (hC _ st₀ c v hst₀ h')
            · have hmem := g8 c h'.1
              rw [g2] at hmem
              exact h'.2 ▸ hmem
          · rw [h.2]
            exact List.mem_append_left _ hdead
        · rw [q2 k' hne] at hk'
          by_cases hadd : k' ∈ added
          · rw [g5 k' hadd] at hk'
            cases hk'
            cases hc'
          · rw [g6 k' hne hadd] at hk'
            exact List.mem_append_left _ (hC k' st' c v hk' hc')

/-- Every key of the final map is the dead state's key or reachable from
the start state, and the map is closed under recorded transitions. -/
theorem nfaToDfa_reach {arena : Arena} {ns na : Nat} {stK : Finset Nat} {m : DFAMap}
    (h : nfaToDfa arena ns na = some (stK, m)) :
    (∀ k ∈ dkeys m, k = ∅ ∨ MapReach m stK k) ∧
    (∀ k st c v, dget m k = some st → dget st.transitions c = some v → v ∈ dkeys m) := by
  obtain ⟨hstK, hL⟩ := nfaToDfa_some_elim h
  subst hstK
  constructor
  · refine dfaLoop_reach arena na _ _ _ _ _ hL (List.nodup_singleton _) ?_ ?_ ?_
    · intro k hk
      simp only [List.mem_singleton] at hk
      subst hk
      refine ⟨⟨[], na ∈ epsClosure arena [ns]⟩, ?_, rfl⟩
      rw [initMap_eq]
      simp [dget]
    · intro k hk
      simp only [List.mem_singleton] at hk
      subst hk
      exact Relation.ReflTransGen.refl
    · intro k hk
      rw [initMap_eq] at hk
      simp only [dkeys, List.map_cons, List.map_nil] at hk
      rcases List.mem_cons.mp hk with h | h
      · exact Or.inr (h ▸ Relation.ReflTransGen.refl)
      · simp only [List.mem_singleton] at h
        exact Or.inl h
  · refine dfaLoop_closed arena na _ _ _ _ hL ?_ ?_ ?_
    · intro k hk
      simp only [List.mem_singleton] at hk
      rw [initMap_eq]
      simp [dkeys, hk]
    · rw [initMap_eq]
      simp [dkeys]
    · intro k st c v hk hc
      rw [initMap_eq] at hk ⊢
      by_cases h1 : k = epsClosure arena [ns]
      · simp only [dget, if_pos h1] at hk
        cases hk
        cases hc
      · by_cases h2 : k = ∅
        · simp only [dget, if_neg h1, if_pos h2] at hk
          cases hk
          have hv : v = ∅ := by
            by_cases hca : c = 'a'
            · simp [dget, hca] at hc
              exact hc.symm
            · by_cases hcb : c = 'b'
              · simp [dget, hca, hcb] at hc
                exact hc.symm
              · simp [dget, hca, hcb] at hc
          subst hv
          simp [dkeys]
        · simp [dget, h1, h2] at hk

/-- If a set of keys contains the source, is closed under every transition
recorded in the map, and misses the target, then the target is not
reachable — the decidable closure condition ranges over the entries of the
concrete map, so concrete instances are settled by `decide`. -/
theorem not_mapReach_of_closed (m : DFAMap) (k₀ kBad : Finset Nat)
    (S : Finset (Finset Nat)) (h₀ : k₀ ∈ S) (hBad : kBad ∉ S)
    (hclosed : ∀ k ∈ S, ∀ p ∈ (((dget m k).map DFAState.transitions).getD []), p.2 ∈ S) :
    ¬ MapReach m k₀ kBad := by
  intro hr
  have hS : ∀ k, MapReach m k₀ k → k ∈ S := by
    intro k hk
    induction hk with
    | refl => exact h₀
    | tail hab hstep ihr =>
      obtain ⟨st, c, hst, hc⟩ := hstep
      have hp := hclosed _ ihr (c, _) (by rw [hst]; exact dget_mem hc)
      exact hp
  exact hBad (hS kBad hr)

/-! ### The builder invariant: accept states on the stack are fresh -/

theorem setTrans_length (arena : Arena) (i : Nat) (c : Char) (ts : List Nat) :
    (setTrans arena i c ts).length = arena.length := by
  simp [setTrans]

theorem stTrans_set_ne (arena : Arena) (i j : Nat) (c : Char) (ts : List Nat)
    (h : j ≠ i) : stTrans (setTrans arena i c ts) j = stTrans arena j := by
  unfold stTrans setTrans
  rw [List.getElem?_set_ne (fun he => h he.symm)]

theorem stTrans_append_lt (arena : Arena) (sts : List NFAState) (i : Nat)
    (h : i < arena.length) : stTrans (arena ++ sts) i = stTrans arena i := by
  unfold stTrans
  rw [List.getElem?_append_left h]

theorem stTrans_of_ge (arena : Arena) (i : Nat) (h : arena.length ≤ i) :
    stTrans arena i = [] := by
  unfold stTrans
  rw [List.getElem?_eq_none h]
  rfl

theorem stTrans_empty_pad (arena : Arena) (sts : List NFAState) (i : Nat)
    (hlen : arena.length ≤ i) (hsts : ∀ st ∈ sts, st.transitions = []) :
    stTrans (arena ++ sts) i = [] := by
  unfold stTrans
  rw [List.getElem?_append_right hlen]
  cases hj : sts[i - arena.length]? with
  | none => simp [hj]
  | some st => simp [hj, hsts st (List.getElem?_mem hj)]

/-- The invariant of the builder stack: every fragment's accept state is a
valid arena index with an *empty* transition dictionary, and the accept
indices are pairwise distinct.  This is what makes the `ε`-assignments of
star, concatenation and union (which replace, not extend, the accept
state's entry) lossless. -/
def FragInv (stack : List (Nat × Nat)) (arena : Arena) : Prop :=
  (∀ p ∈ stack, p.2 < arena.length ∧ stTrans arena p.2 = []) ∧
  (stack.map Prod.snd).Nodup

instance (stack : List (Nat × Nat)) (arena : Arena) : Decidable (FragInv stack arena) := by
  unfold FragInv
  infer_instance

theorem constructStep_inv (c : Char) (stack : List (Nat × Nat)) (arena : Arena)
    (stack' : List (Nat × Nat)) (arena' : Arena)
    (h : constructStep c (stack, arena) = some (stack', arena'))
    (hinv : FragInv stack arena) : FragInv stack' arena' := by
  obtain ⟨hfr, hnd⟩ := hinv
  have hpad : ∀ i, arena.length ≤ i →
      stTrans (arena ++ [⟨[]⟩, ⟨[]⟩]) i = [] := by
    intro i hi
    refine stTrans_empty_pad arena _ i hi ?_
    intro st hst
    simp only [List.mem_cons, List.not_mem_nil, or_false] at hst
    rcases hst with h | h <;> simp [h]
  have hpadlt : ∀ i, i < arena.length →
      stTrans (arena ++ [⟨[]⟩, ⟨[]⟩]) i = stTrans arena i := by
    intro i hi
    exact stTrans_append_lt arena _ i hi
  by_cases hlit : isalnum c
  · simp +decide [constructStep, hlit, newState] at h
    obtain ⟨hs, ha⟩ := h
    subst hs
    subst ha
    constructor
    · intro p hp
      rcases List.mem_cons.mp hp with hp | hp
      · subst hp
        refine ⟨by simp [setTrans], ?_⟩
        rw [stTrans_set_ne _ _ _ _ _ (by omega)]
        exact hpad _ (by omega)
      · obtain ⟨h1, h2⟩ := hfr p hp
        refine ⟨by simp [setTrans]; omega, ?_⟩
        rw [stTrans_set_ne _ _ _ _ _ (by omega), hpadlt _ h1]
        exact h2
    · simp only [List.map_cons, List.nodup_cons]
      refine ⟨fun hmem => ?_, hnd⟩
      obtain ⟨p, hp, hpe⟩ := List.mem_map.mp hmem
      have := (hfr p hp).1
      omega
  · by_cases hstar : c = '*'
    · subst hstar
      match stack with
      | [] => simp [constructStep, show isalnum '*' = false from rfl] at h
      | (ns, na) :: rest =>
        simp +decide [constructStep, newState] at h
        obtain ⟨hs, ha⟩ := h
        subst hs
        subst ha
        have hna : na < arena.length := (hfr (ns, na) (List.mem_cons_self _ _)).1
        have hndr : (rest.map Prod.snd).Nodup ∧ na ∉ rest.map Prod.snd := by
          simp only [List.map_cons, List.nodup_cons] at hnd
          exact ⟨hnd.2, hnd.1⟩
        constructor
        · intro p hp
          rcases List.mem_cons.mp hp with hp | hp
          · subst hp
            refine ⟨by simp [setTrans], ?_⟩
            rw [stTrans_set_ne _ _ _ _ _ (by omega),
              stTrans_set_ne _ _ _ _ _ (by omega)]
            exact hpad _ (by omega)
          · obtain ⟨h1, h2⟩ := hfr p (List.mem_cons_of_mem _ hp)
            have hne : p.2 ≠ na := by
              intro he
              exact hndr.2 (he ▸ List.mem_map_of_mem Prod.snd hp)
            refine ⟨by simp [setTrans]; omega, ?_⟩
            rw [stTrans_set_ne _ _ _ _ _ hne,
              stTrans_set_ne _ _ _ _ _ (by omega), hpadlt _ h1]
            exact h2
        · simp only [List.map_cons, List.nodup_cons]
          refine ⟨fun hmem => ?_, hndr.1⟩
          obtain ⟨p, hp, hpe⟩ := List.mem_map.mp hmem
          have := (hfr p (List.mem_cons_of_mem _ hp)).1
          omega
    · by_cases hdot : c = '.'
      · subst hdot
        match stack with
        | [] => simp [constructStep, show isalnum '.' = false from rfl] at h
        | [p] => simp [constructStep, show isalnum '.' = false from rfl,
            show ('.' = '*') = False by simp] at h
        | (s2, a2) :: (s1, a1) :: rest =>
          simp +decide [constructStep] at h
          obtain ⟨hs, ha⟩ := h
          subst hs
          subst ha
          have ha1 : a1 < arena.length := (hfr (s1, a1)
            (List.mem_cons_of_mem _ (List.mem_cons_self _ _))).1
          have ha2 : a2 < arena.length := (hfr (s2, a2) (List.mem_cons_self _ _)).1
          have hnd2 : a2 ∉ (((s1, a1) :: rest).map Prod.snd) ∧
              a1 ∉ rest.map Prod.snd ∧ (rest.map Prod.snd).Nodup := by
            simp only [List.map_cons, List.nodup_cons] at hnd
            exact ⟨by simpa using hnd.1, hnd.2.1, hnd.2.2⟩
          constructor
          · intro p hp
            rcases List.mem_cons.mp hp with hp | hp
            · subst hp
              have hne : a2 ≠ a1 := by
                intro he
                exact hnd2.1 (he ▸ List.mem_cons_self _ _)
              refine ⟨by simp [setTrans]; omega, ?_⟩
              rw [stTrans_set_ne _ _ _ _ _ hne]
              exact (hfr (s2, a2) (List.mem_cons_self _ _)).2
            · obtain ⟨h1, h2⟩ := hfr p
                (List.mem_cons_of_mem _ (List.mem_cons_of_mem _ hp))
              have hne : p.2 ≠ a1 := by
                intro he
                exact hnd2.2.1 (he ▸ List.mem_map_of_mem Prod.snd hp)
              refine ⟨by simp [setTrans]; omega, ?_⟩
              rw [stTrans_set_ne _ _ _ _ _ hne]
              exact h2
          · simp only [List.map_cons, List.nodup_cons]
            refine ⟨fun hmem => ?_, hnd2.2.2⟩
            exact hnd2.1 (List.mem_cons_of_mem _ hmem)
      · by_cases hplus : c = '+'
        · subst hplus
          match stack with
          | [] => simp [constructStep, show isalnum '+' = false from rfl,
              show ('+' = '*') = False by simp,
              show ('+' = '.') = False by simp] at h
          | [p] => simp [constructStep, show isalnum '+' = false from rfl,
              show ('+' = '*') = False by simp,
              show ('+' = '.') = False by simp] at h
          | (s2, a2) :: (s1, a1) :: rest =>
            simp +decide [constructStep, newState] at h
            obtain ⟨hs, ha⟩ := h
            subst hs
            subst ha
            have ha1 : a1 < arena.length := (hfr (s1, a1)
              (List.mem_cons_of_mem _ (List.mem_cons_self _ _))).1
            have ha2 : a2 < arena.length := (hfr (s2, a2) (List.mem_cons_self _ _)).1
            have hnd2 : a2 ∉ (((s1, a1) :: rest).map Prod.snd) ∧
                a1 ∉ rest.map Prod.snd ∧ (rest.map Prod.snd).Nodup := by
              simp only [List.map_cons, List.nodup_cons] at hnd
              exact ⟨by simpa using hnd.1, hnd.2.1, hnd.2.2⟩
            constructor
            · intro p hp
              rcases List.mem_cons.mp hp with hp | hp
              · subst hp
                refine ⟨by simp [setTrans], ?_⟩
                rw [stTrans_set_ne _ _ _ _ _ (by omega),
                  stTrans_set_ne _ _ _ _ _ (by omega),
                  stTrans_set_ne _ _ _ _ _ (by omega)]
                exact hpad _ (by omega)
              · obtain ⟨h1, h2⟩ := hfr p
                  (List.mem_cons_of_mem _ (List.mem_cons_of_mem _ hp))
                have hne2 : p.2 ≠ a2 := by
                  intro he
                  exact hnd2.1 (he ▸ List.mem_cons_of_mem _
                    (List.mem_map_of_mem Prod.snd hp))
                have hne1 : p.2 ≠ a1 := by
                  intro he
                  exact hnd2.2.1 (he ▸ List.mem_map_of_mem Prod.snd hp)
                refine ⟨by simp [setTrans]; omega, ?_⟩
                rw [stTrans_set_ne _ _ _ _ _ hne2, stTrans_set_ne _ _ _ _ _ hne1,
                  stTrans_set_ne _ _ _ _ _ (by omega), hpadlt _ h1]
                exact h2
            · simp only [List.map_cons, List.nodup_cons]
              refine ⟨fun hmem => ?_, hnd2.2.2⟩
              obtain ⟨p, hp, hpe⟩ := List.mem_map.mp hmem
              have := (hfr p
                (List.mem_cons_of_mem _ (List.mem_cons_of_mem _ hp))).1
              omega
        · simp [constructStep, hlit, hstar, hdot, hplus] at h
          obtain ⟨hs, ha⟩ := h
          subst hs
          subst ha
          exact ⟨hfr, hnd⟩

theorem constructNFAAux_inv :
    ∀ (cs : List Char) (stack : List (Nat × Nat)) (arena : Arena)
      (stack' : List (Nat × Nat)) (arena' : Arena),
      constructNFAAux cs (stack, arena) = some (stack', arena') →
      FragInv stack arena → FragInv stack' arena' := by
  intro cs
  induction cs with
  | nil =>
    intro stack arena stack' arena' h hinv
    simp only [constructNFAAux, Option.some.injEq, Prod.mk.injEq] at h
    obtain ⟨hs, ha⟩ := h
    subst hs
    subst ha
    exact hinv
  | cons c cs ih =>
    intro stack arena stack' arena' h hinv
    simp only [constructNFAAux] at h
    cases hstep : constructStep c (stack, arena) with
    | none => rw [hstep] at h; cases h
    | some sa =>
      rw [hstep] at h
      exact ih sa.1 sa.2 stack' arena' (by rw [← h])
        (constructStep_inv c stack arena sa.1 sa.2 (by rw [hstep]) hinv)

/-! ### The claims -/

/-- Claim C1: for the regex `(a+b+c)(a+b)*c`, the DFA produced by
`regex_to_dfa` accepts `"ac"`, `"bac"` and `"cabbac"` and rejects `"ab"`
and the empty string, where acceptance means following the transition
mapping from the returned start state on each symbol and ending in a state
whose accept flag is true. -/
theorem claim_C1 :
    (regexToDfa ("(a+b+c)(a+b)*c".toList)).isSome = true ∧
    pipelineAccepts ("(a+b+c)(a+b)*c".toList) ("ac".toList) = true ∧
    pipelineAccepts ("(a+b+c)(a+b)*c".toList) ("bac".toList) = true ∧
    pipelineAccepts ("(a+b+c)(a+b)*c".toList) ("cabbac".toList) = true ∧
    pipelineAccepts ("(a+b+c)(a+b)*c".toList) ("ab".toList) = false ∧
    pipelineAccepts ("(a+b+c)(a+b)*c".toList) ("".toList) = false :=
  ⟨rfl, rfl, rfl, rfl, rfl, rfl⟩

/-- Does the start state of the DFA built from `r` carry a transition on
the symbol `'c'` — a symbol outside the hardcoded completion alphabet
`'ab'` of `nfa_to_dfa`? -/
def startStateHasC (r : List Char) : Bool :=
  match regexToDfa r with
  | some (stK, m) =>
    match dget m stK with
    | some st => (dget st.transitions 'c').isSome
    | none => false
  | none => false

/-- Claim C2, counterexample: for the canonical regex the start DFA state
carries a transition on `'c'`, a symbol outside the determinizer's
(hardcoded, not parametric) alphabet `'ab'` — refuting "no DFA state
carries a transition on a symbol outside that alphabet". -/
theorem claim_C2_counterexample :
    startStateHasC ("(a+b+c)(a+b)*c".toList) = true := rfl

/-- Claim C2, amended: after `nfa_to_dfa` completes, every DFA state in
the returned mapping has exactly one transition on each symbol of the
hardcoded alphabet `'ab'` (present, and the transition dictionary has no
duplicate keys); however states may also carry transitions on other
symbols probed from the regex, and the alphabet is the hardcoded string
`'ab'`, not an explicit parameter. -/
theorem claim_C2 (arena : Arena) (ns na : Nat) (stK : Finset Nat) (m : DFAMap)
    (h : nfaToDfa arena ns na = some (stK, m)) :
    ∀ k st, dget m k = some st →
      (dget st.transitions 'a').isSome = true ∧
      (dget st.transitions 'b').isSome = true ∧
      (dkeys st.transitions).Nodup := by
  intro k st hk
  obtain ⟨_, h2, h3, h4⟩ := nfaToDfa_entries h k st hk
  exact ⟨h3, h4, h2⟩

theorem claim_C2_witness :
    (nfaToDfa [⟨[('a', [1])]⟩, ⟨[]⟩] 0 1
      = some ({0}, [({0}, ⟨[('a', {1}), ('b', ∅)], false⟩),
                    (∅, ⟨[('a', ∅), ('b', ∅)], false⟩),
                    ({1}, ⟨[('a', ∅), ('b', ∅)], true⟩)])) ∧
    ((dget (⟨[('a', ∅), ('b', ∅)], false⟩ : DFAState).transitions 'a').isSome = true ∧
     (dget (⟨[('a', ∅), ('b', ∅)], false⟩ : DFAState).transitions 'b').isSome = true ∧
     (dkeys (⟨[('a', ∅), ('b', ∅)], false⟩ : DFAState).transitions).Nodup) :=
  ⟨by decide,
   claim_C2 [⟨[('a', [1])]⟩, ⟨[]⟩] 0 1 {0}
     [({0}, ⟨[('a', {1}), ('b', ∅)], false⟩),
      (∅, ⟨[('a', ∅), ('b', ∅)], false⟩),
      ({1}, ⟨[('a', ∅), ('b', ∅)], true⟩)] (by decide)
     ∅ ⟨[('a', ∅), ('b', ∅)], false⟩ (by decide)⟩

/-- Claim C3: for every NFA input — an arena of states with a start and an
accept index — `nfa_to_dfa` terminates: the worklist drains within the
fuel bound `2 ^ |stateUniverse| + 1`, because each enqueued DFA state has a
distinct defining set drawn from the powerset of the finite state
universe, so the embedding returns a result (`isSome`) rather than running
out of fuel. -/
theorem claim_C3 (arena : Arena) (ns na : Nat) :
    (nfaToDfa arena ns na).isSome = true :=
  nfaToDfa_isSome arena ns na

/-- Claim C4, counterexample: on the malformed input `"(a+b"` the
converter does *not* raise — it returns the sequence `"ab+("`, with the
unmatched `(` emitted into the postfix output by the final
drain-the-stack loop. -/
theorem claim_C4_counterexample :
    regexToPost ("(a+b".toList) ≠ none := by decide

/-- Claim C4, amended: for the input `"(a+b"` the converter raises no
error and returns the postfix sequence `"ab+("` (the unmatched `(` left
on the operator stack at end-of-input is appended to the output).  Only an
unmatched `)` raises (modelled as `none`), as on `"a+b)"`. -/
theorem claim_C4 :
    regexToPost ("(a+b".toList) = some ("ab+(".toList) ∧
    regexToPost ("a+b)".toList) = none :=
  ⟨rfl, rfl⟩

/-- Claim C5, counterexample: `construct_nfa` applied to the empty postfix
sequence does *not* return an empty-language NFA — the final
`stack.pop()` underflows (modelled as `none`). -/
theorem claim_C5_counterexample : constructNFA [] = none := rfl

/-- Claim C5, amended: the empty regex yields the empty postfix sequence,
but `construct_nfa` on the empty postfix fails with a stack underflow
rather than returning an empty-language NFA, so the whole pipeline fails
on the empty regex. -/
theorem claim_C5 :
    regexToPost ("".toList) = some [] ∧
    (constructNFA []).isNone = true ∧
    regexToDfa ("".toList) = none :=
  ⟨rfl, rfl, rfl⟩

/-- Claim C6: `epsilon_closure` is idempotent
(`closure(closure(S)) = closure(S)`), returns a duplicate-free set, and
its result does not depend on the order (or multiplicity) in which the
seed states are presented. -/
theorem claim_C6 (arena : Arena) (S l1 l2 : List Nat)
    (h : l1.toFinset = l2.toFinset) :
    epsClosure arena (sortedKeys (epsClosure arena S)) = epsClosure arena S ∧
    (sortedKeys (epsClosure arena S)).Nodup ∧
    epsClosure arena l1 = epsClosure arena l2 := by
  refine ⟨?_, sortedKeys_nodup _, ?_⟩
  · ext y
    rw [mem_epsClosure]
    constructor
    · rintro ⟨s, hs, hr⟩
      obtain ⟨s₀, hs₀, hr₀⟩ := mem_epsClosure.mp (mem_sortedKeys.mp hs)
      exact mem_epsClosure.mpr ⟨s₀, hs₀, hr₀.trans hr⟩
    · intro hy
      exact ⟨y, mem_sortedKeys.mpr hy, Relation.ReflTransGen.refl⟩
  · ext y
    rw [mem_epsClosure, mem_epsClosure]
    constructor
    · rintro ⟨s, hs, hr⟩
      refine ⟨s, ?_, hr⟩
      rw [← List.mem_toFinset, ← h, List.mem_toFinset]
      exact hs
    · rintro ⟨s, hs, hr⟩
      refine ⟨s, ?_, hr⟩
      rw [← List.mem_toFinset, h, List.mem_toFinset]
      exact hs

theorem claim_C6_witness :
    (([0, 1] : List Nat).toFinset = ([1, 0, 0] : List Nat).toFinset) ∧
    (epsClosure [⟨[('ε', [1])]⟩, ⟨[]⟩]
        (sortedKeys (epsClosure [⟨[('ε', [1])]⟩, ⟨[]⟩] [0]))
      = epsClosure [⟨[('ε', [1])]⟩, ⟨[]⟩] [0] ∧
     (sortedKeys (epsClosure [⟨[('ε', [1])]⟩, ⟨[]⟩] [0])).Nodup ∧
     epsClosure [⟨[('ε', [1])]⟩, ⟨[]⟩] [0, 1]
      = epsClosure [⟨[('ε', [1])]⟩, ⟨[]⟩] [1, 0, 0]) :=
  ⟨by decide, claim_C6 [⟨[('ε', [1])]⟩, ⟨[]⟩] [0] [0, 1] [1, 0, 0] (by decide)⟩

/-- Claim C7, counterexample: `move` does not exclude epsilon transitions:
on an arena whose state `0` has an epsilon transition to state `1`,
`move({0}, 'ε')` is `{1}`, not the empty set.  (The epsilon exclusion
happens at the call site in `nfa_to_dfa`, which filters `'ε'` out of the
probed symbols.) -/
theorem claim_C7_counterexample :
    move [⟨[('ε', [1])]⟩, ⟨[]⟩] [0] 'ε' ≠ ∅ := by decide

/-- Claim C7, amended: for every state set and every symbol — the epsilon
symbol included — `move(S, symbol)` is exactly the union, over the states
of `S`, of the targets of their one-step transitions labelled `symbol`;
no epsilon exclusion is performed inside `move` itself. -/
theorem claim_C7 (arena : Arena) (states : List Nat) (symbol : Char) (t : Nat) :
    t ∈ move arena states symbol ↔
      ∃ s ∈ states, ∃ ts, dget (stTrans arena s) symbol = some ts ∧ t ∈ ts :=
  mem_move

/-- Claim C8: every DFA state in the mapping returned by `nfa_to_dfa` has
its accept flag true exactly when the NFA's designated accept state is a
member of that DFA state's defining set. -/
theorem claim_C8 (arena : Arena) (ns na : Nat) (stK : Finset Nat) (m : DFAMap)
    (h : nfaToDfa arena ns na = some (stK, m)) :
    ∀ k st, dget m k = some st → (st.is_accept = true ↔ na ∈ k) := by
  intro k st hk
  rw [(nfaToDfa_entries h k st hk).1]
  exact decide_eq_true_iff

theorem claim_C8_witness :
    (nfaToDfa [⟨[('a', [1])]⟩, ⟨[]⟩] 0 1
      = some ({0}, [({0}, ⟨[('a', {1}), ('b', ∅)], false⟩),
                    (∅, ⟨[('a', ∅), ('b', ∅)], false⟩),
                    ({1}, ⟨[('a', ∅), ('b', ∅)], true⟩)])) ∧
    ((⟨[('a', ∅), ('b', ∅)], true⟩ : DFAState).is_accept = true ↔
      1 ∈ ({1} : Finset Nat)) :=
  ⟨by decide,
   claim_C8 [⟨[('a', [1])]⟩, ⟨[]⟩] 0 1 {0}
     [({0}, ⟨[('a', {1}), ('b', ∅)], false⟩),
      (∅, ⟨[('a', ∅), ('b', ∅)], false⟩),
      ({1}, ⟨[('a', ∅), ('b', ∅)], true⟩)] (by decide)
     {1} ⟨[('a', ∅), ('b', ∅)], true⟩ (by decide)⟩

/-- Structural boolean equality of transition dictionaries (the reduction
path stays in structural recursion, so concrete pipeline outputs can be
compared by `rfl`). -/
def transEqb : List (Char × Finset Nat) → List (Char × Finset Nat) → Bool
  | [], [] => true
  | (c1, k1) :: r1, (c2, k2) :: r2 =>
    c1 == c2 && decide (k1 = k2) && transEqb r1 r2
  | _, _ => false

def stateEqb (x y : DFAState) : Bool :=
  transEqb x.transitions y.transitions && (x.is_accept == y.is_accept)

def mapEqb : DFAMap → DFAMap → Bool
  | [], [] => true
  | (k1, s1) :: r1, (k2, s2) :: r2 =>
    decide (k1 = k2) && stateEqb s1 s2 && mapEqb r1 r2
  | _, _ => false

def resultEqb : Option (Finset Nat × DFAMap) → Option (Finset Nat × DFAMap) → Bool
  | none, none => true
  | some (k1, m1), some (k2, m2) => decide (k1 = k2) && mapEqb m1 m2
  | _, _ => false

theorem transEqb_sound : ∀ d1 d2, transEqb d1 d2 = true → d1 = d2 := by
  intro d1
  induction d1 with
  | nil =>
    intro d2 h
    cases d2 with
    | nil => rfl
    | cons q r2 => simp [transEqb] at h
  | cons p r1 ih =>
    intro d2 h
    cases d2 with
    | nil =>
      obtain ⟨c1, k1⟩ := p
      simp [transEqb] at h
    | cons q r2 =>
      obtain ⟨c1, k1⟩ := p
      obtain ⟨c2, k2⟩ := q
      simp only [transEqb, Bool.and_eq_true, beq_iff_eq, decide_eq_true_eq] at h
      obtain ⟨⟨hc, hk⟩, hr⟩ := h
      rw [hc, hk, ih r2 hr]

theorem stateEqb_sound (x y : DFAState) (h : stateEqb x y = true) : x = y := by
  obtain ⟨t1, a1⟩ := x
  obtain ⟨t2, a2⟩ := y
  simp only [stateEqb, Bool.and_eq_true, beq_iff_eq] at h
  rw [transEqb_sound _ _ h.1, h.2]

theorem mapEqb_sound : ∀ m1 m2, mapEqb m1 m2 = true → m1 = m2 := by
  intro m1
  induction m1 with
  | nil =>
    intro m2 h
    cases m2 with
    | nil => rfl
    | cons q r2 => simp [mapEqb] at h
  | cons p r1 ih =>
    intro m2 h
    cases m2 with
    | nil =>
      obtain ⟨k1, s1⟩ := p
      simp [mapEqb] at h
    | cons q r2 =>
      obtain ⟨k1, s1⟩ := p
      obtain ⟨k2, s2⟩ := q
      simp only [mapEqb, Bool.and_eq_true, decide_eq_true_eq] at h
      obtain ⟨⟨hk, hs⟩, hr⟩ := h
      rw [hk, stateEqb_sound _ _ hs, ih r2 hr]

theorem resultEqb_sound : ∀ r1 r2, resultEqb r1 r2 = true → r1 = r2 := by
  intro r1 r2 h
  match r1, r2 with
  | none, none => rfl
  | none, some (k2, m2) => simp [resultEqb] at h
  | some (k1, m1), none => simp [resultEqb] at h
  | some (k1, m1), some (k2, m2) =>
    simp only [resultEqb, Bool.and_eq_true, decide_eq_true_eq] at h
    rw [h.1, mapEqb_sound _ _ h.2]

/-- The DFA map the pipeline computes for the regex `(a+b)*`: its four
states are the start state, two live successor states, and the dead state
— which no transition of any state targets. -/
def mapABStar : DFAMap :=
  [({0, 2, 4, 6, 7}, ⟨[('a', {0, 1, 2, 4, 5, 7}), ('b', {0, 2, 3, 4, 5, 7})], true⟩),
   (∅, ⟨[('a', ∅), ('b', ∅)], false⟩),
   ({0, 1, 2, 4, 5, 7}, ⟨[('a', {0, 1, 2, 4, 5, 7}), ('b', {0, 2, 3, 4, 5, 7})], true⟩),
   ({0, 2, 3, 4, 5, 7}, ⟨[('a', {0, 1, 2, 4, 5, 7}), ('b', {0, 2, 3, 4, 5, 7})], true⟩)]

/-- Claim C9, counterexample: for the regex `(a+b)*` the returned state
collection contains the dead state (key `∅`) even though it is *not*
reachable from the start state by following transitions — so the output
is not "the states reachable from the start and nothing else". -/
theorem claim_C9_counterexample :
    regexToDfa ("(a+b)*".toList) = some ({0, 2, 4, 6, 7}, mapABStar) ∧
    ∅ ∈ dkeys mapABStar ∧
    ¬ MapReach mapABStar {0, 2, 4, 6, 7} ∅ :=
  ⟨resultEqb_sound _ _ rfl, by decide,
   not_mapReach_of_closed mapABStar {0, 2, 4, 6, 7} ∅
     {{0, 2, 4, 6, 7}, {0, 1, 2, 4, 5, 7}, {0, 2, 3, 4, 5, 7}}
     (by decide) (by decide) (by decide)⟩

/-- Claim C9, amended: every DFA state in the collection returned by
`nfa_to_dfa` is reachable from the returned start state by following
transitions *or* is the always-present dead state (defining set `∅`); and
the collection is closed under transitions, so it contains every state
reachable from the start. -/
theorem claim_C9 (arena : Arena) (ns na : Nat) (stK : Finset Nat) (m : DFAMap)
    (h : nfaToDfa arena ns na = some (stK, m)) :
    (∀ k ∈ dkeys m, k = ∅ ∨ MapReach m stK k) ∧
    (∀ k st c v, dget m k = some st → dget st.transitions c = some v →
      v ∈ dkeys m) :=
  nfaToDfa_reach h

theorem claim_C9_witness :
    (nfaToDfa [⟨[('a', [1])]⟩, ⟨[]⟩] 0 1
      = some ({0}, [({0}, ⟨[('a', {1}), ('b', ∅)], false⟩),
                    (∅, ⟨[('a', ∅), ('b', ∅)], false⟩),
                    ({1}, ⟨[('a', ∅), ('b', ∅)], true⟩)])) ∧
    (({1} : Finset Nat) ∈ dkeys ([({0}, ⟨[('a', {1}), ('b', ∅)], false⟩),
                  (∅, ⟨[('a', ∅), ('b', ∅)], false⟩),
                  ({1}, ⟨[('a', ∅), ('b', ∅)], true⟩)] : DFAMap)) ∧
    (({1} : Finset Nat) = ∅ ∨
      MapReach [({0}, ⟨[('a', {1}), ('b', ∅)], false⟩),
                (∅, ⟨[('a', ∅), ('b', ∅)], false⟩),
                ({1}, ⟨[('a', ∅), ('b', ∅)], true⟩)] {0} {1}) :=
  ⟨by decide, by decide,
   (claim_C9 [⟨[('a', [1])]⟩, ⟨[]⟩] 0 1 {0}
     [({0}, ⟨[('a', {1}), ('b', ∅)], false⟩),
      (∅, ⟨[('a', ∅), ('b', ∅)], false⟩),
      ({1}, ⟨[('a', ∅), ('b', ∅)], true⟩)] (by decide)).1 {1} (by decide)⟩

/-- Claim C10: at every step of `construct_nfa` — i.e. after processing
any prefix of any postfix input, starting from the empty stack and arena —
every fragment `(start, accept)` on the builder stack has an accept state
whose transition dictionary is empty (and the accept indices are pairwise
distinct).  Consequently the epsilon-transition assignments performed for
star, concatenation and union, which *replace* the popped accept states'
`'ε'` entry, always write into an empty dictionary and never discard a
previously created transition. -/
theorem claim_C10 (cs : List Char) (stack' : List (Nat × Nat)) (arena' : Arena)
    (h : constructNFAAux cs ([], []) = some (stack', arena')) :
    (∀ p ∈ stack', stTrans arena' p.2 = []) ∧ (stack'.map Prod.snd).Nodup := by
  have hinv := constructNFAAux_inv cs [] [] stack' arena' h
    ⟨by simp, List.nodup_nil⟩
  exact ⟨fun p hp => (hinv.1 p hp).2, hinv.2⟩

theorem claim_C10_witness :
    (constructNFAAux ("ab+".toList) ([], [])
      = some ([(4, 5)],
        [⟨[('a', [1])]⟩, ⟨[('ε', [5])]⟩, ⟨[('b', [3])]⟩, ⟨[('ε', [5])]⟩,
         ⟨[('ε', [0, 2])]⟩, ⟨[]⟩])) ∧
    stTrans [⟨[('a', [1])]⟩, ⟨[('ε', [5])]⟩, ⟨[('b', [3])]⟩, ⟨[('ε', [5])]⟩,
      ⟨[('ε', [0, 2])]⟩, ⟨[]⟩] 5 = [] :=
  ⟨by decide,
   (claim_C10 ("ab+".toList) [(4, 5)]
     [⟨[('a', [1])]⟩, ⟨[('ε', [5])]⟩, ⟨[('b', [3])]⟩, ⟨[('ε', [5])]⟩,
      ⟨[('ε', [0, 2])]⟩, ⟨[]⟩] (by decide)).1 (4, 5) (List.mem_singleton_self _)⟩

end RegexDFA
